import Mathlib

/-!
Verification of the BOM-checking core of the PDF drawing checker
(`app.py`).  The development shallowly embeds the table normalizer, the
candidate selection, the geometric barrier scan and the row comparator of
the source, and proves the specification claims about them.

Numeric values that the Python source handles as floats are modelled as
rationals.  The standard rational arithmetic of the library is not
kernel-reducible, so the embedding computes through `mkRat` and
`Rat.blt`; bridge lemmas identify these operations with the standard
ones, and every definition evaluates by `decide` on concrete inputs.

Recursions that consume a suffix of the input that is not an immediate
tail use the standard fuel idiom, with fuel initialised to the input
length, which every step decreases by at least one.
-/

namespace PDFQC

/-! ### Kernel-reducible rational arithmetic -/

def qlt (a b : ℚ) : Bool := Rat.blt a b

def qle (a b : ℚ) : Bool := !(Rat.blt b a)

def qadd (a b : ℚ) : ℚ := mkRat (a.num * b.den + b.num * a.den) (a.den * b.den)

def qsub (a b : ℚ) : ℚ := mkRat (a.num * b.den - b.num * a.den) (a.den * b.den)

def qmul (a b : ℚ) : ℚ := mkRat (a.num * b.num) (a.den * b.den)

def qabs (a : ℚ) : ℚ := if qlt a 0 then -a else a

/-- Python `max(a, b)` on two floats. -/
def pymax (a b : ℚ) : ℚ := if qlt a b then b else a

/-- Python `min(a, b)` on two floats. -/
def pymin (a b : ℚ) : ℚ := if qle a b then a else b

/-- Halving, used for midpoints and for the 0.5-scaled thresholds. -/
def qhalf (a : ℚ) : ℚ := mkRat a.num (a.den * 2)

/-- The float-equality tolerance 1e-6 used throughout the source. -/
def qeps : ℚ := mkRat 1 1000000

/-- The numeric comparison tolerance 0.5 used by the comparator. -/
def qtol : ℚ := mkRat 1 2

/-! ### Python string helpers

The source manipulates Python strings; the embedding works on the
underlying character lists so that every operation is structural. -/

/-- Python `str.split()` (split on whitespace runs, dropping empty parts). -/
def splitWsAux : List Char → List Char → List (List Char)
  | [], acc => if acc.isEmpty then [] else [acc.reverse]
  | c :: rest, acc =>
    if c.isWhitespace then
      if acc.isEmpty then splitWsAux rest [] else acc.reverse :: splitWsAux rest []
    else
      splitWsAux rest (c :: acc)

def pySplit (s : String) : List (List Char) := splitWsAux s.data []

/-- Python `str.strip()`: drop whitespace from both ends. -/
def pyStrip (cs : List Char) : List Char :=
  ((cs.dropWhile Char.isWhitespace).reverse.dropWhile Char.isWhitespace).reverse

/-- Python `str.strip(chars)`: drop characters satisfying `p` from both ends. -/
def stripEnds (p : Char → Bool) (cs : List Char) : List Char :=
  ((cs.dropWhile p).reverse.dropWhile p).reverse

def toLowerChars (cs : List Char) : List Char := cs.map Char.toLower

/-- Python `" ".join`, on character lists. -/
def joinSpace : List (List Char) → List Char
  | [] => []
  | [t] => t
  | t :: rest => t ++ ' ' :: joinSpace rest

/-- Value of a digit string (most significant first). -/
def digitsVal (ds : List Char) : ℕ := ds.foldl (fun n c => n * 10 + (c.toNat - 48)) 0

/-- The rational denoted by an optional sign, an integer digit part and a
fractional digit part. -/
def ratOfDigits (neg : Bool) (intPart fracPart : List Char) : ℚ :=
  let n : ℕ := digitsVal intPart * 10 ^ fracPart.length + digitsVal fracPart
  mkRat (if neg then -(n : ℤ) else (n : ℤ)) (10 ^ fracPart.length)

/-- Leading digit run and remainder, greedy. -/
def spanDigits (cs : List Char) : List Char × List Char := cs.span Char.isDigit

/-! ### Number extraction scanners

Each scanner mirrors one `re.findall` pattern of the source: leftmost,
non-overlapping, greedy matches. -/

/-- Greedy match of the core pattern `\d+(\.\d+)?` at the head of the
input (the caller has checked that the head is a digit): integer digits,
fractional digits, and the unconsumed rest. -/
def matchNumCore (cs : List Char) : (List Char × List Char) × List Char :=
  let s1 := spanDigits cs
  match s1.2 with
  | '.' :: r2 =>
    let s2 := spanDigits r2
    if s2.1.isEmpty then ((s1.1, []), s1.2) else ((s1.1, s2.1), s2.2)
  | _ => ((s1.1, []), s1.2)

/-- Scanner for `re.findall(r"[-+]?\d+(?:\.\d+)?", text)`, as used by
`_numeric_from_text`. -/
def scanNumsSigned : ℕ → List Char → List ℚ
  | 0, _ => []
  | _, [] => []
  | fuel + 1, c :: rest =>
    if c.isDigit then
      let m := matchNumCore (c :: rest)
      ratOfDigits false m.1.1 m.1.2 :: scanNumsSigned fuel m.2
    else if (c = '-' || c = '+') && (match rest with | d :: _ => d.isDigit | [] => false) then
      let m := matchNumCore rest
      ratOfDigits (c = '-') m.1.1 m.1.2 :: scanNumsSigned fuel m.2
    else
      scanNumsSigned fuel rest

/-- Scanner for `re.findall(r"\d+(?:\.\d+)?", text)` (unsigned), as used by
the size-column parser of `extract_rows_with_plumber`. -/
def scanNumsUnsigned : ℕ → List Char → List ℚ
  | 0, _ => []
  | _, [] => []
  | fuel + 1, c :: rest =>
    if c.isDigit then
      let m := matchNumCore (c :: rest)
      ratOfDigits false m.1.1 m.1.2 :: scanNumsUnsigned fuel m.2
    else
      scanNumsUnsigned fuel rest

/-- Greedy match of the thousands groups `(?:[,\s]\d{3})*` at the head of
the input: the digits of the matched groups and the unconsumed rest. -/
def matchThousands : ℕ → List Char → List Char × List Char
  | 0, cs => ([], cs)
  | fuel + 1, cs =>
    match cs with
    | sep :: d1 :: d2 :: d3 :: rest =>
      if (sep = ',' || sep.isWhitespace) && d1.isDigit && d2.isDigit && d3.isDigit then
        let m := matchThousands fuel rest
        ([d1, d2, d3] ++ m.1, m.2)
      else ([], cs)
    | _ => ([], cs)

/-- Scanner for `re.findall(r"\d+(?:[,\s]\d{3})*(?:\.\d+)?", text)` as used
by `extract_numeric_values`; the match text has separators removed before
conversion, so the scanner returns the denoted rationals directly. -/
def scanNumsThousands : ℕ → List Char → List ℚ
  | 0, _ => []
  | _, [] => []
  | fuel + 1, c :: rest =>
    if c.isDigit then
      let s1 := spanDigits (c :: rest)
      let g := matchThousands s1.2.length s1.2
      let intDigits := s1.1 ++ g.1
      match g.2 with
      | '.' :: r2 =>
        let s2 := spanDigits r2
        if s2.1.isEmpty then
          ratOfDigits false intDigits [] :: scanNumsThousands fuel g.2
        else
          ratOfDigits false intDigits s2.1 :: scanNumsThousands fuel s2.2
      | _ => ratOfDigits false intDigits [] :: scanNumsThousands fuel g.2
    else
      scanNumsThousands fuel rest

/-- Embedding of `extract_numeric_values(text)`. -/
def extract_numeric_values (s : String) : List ℚ :=
  scanNumsThousands s.data.length s.data

/-! ### Data model -/

/-- A page word with its bounding box, as consumed from the word extractor.
Words whose coordinates are missing are skipped by the source before any
geometric step, so the embedding gives every word total coordinates. -/
structure Word where
  text : String
  x0 : ℚ
  x1 : ℚ
  top : ℚ
  bottom : ℚ
  deriving DecidableEq

/-- A bounding box of a matched callout span. -/
structure Bbox where
  x0 : ℚ
  x1 : ℚ
  top : ℚ
  bottom : ℚ
  deriving DecidableEq

/-- A normalized table row, the item record built by the table normalizer
(the row dict of the source; the overlay-only `table_anchor` field is not
modelled). -/
structure Row where
  pos : String
  description : String
  length : Option ℚ
  length_display : Option String
  length_options : List ℚ
  thickness : Option ℚ
  thickness_display : Option String
  quantity : Option ℚ
  quantity_display : Option String
  callout_quantity_text : Option String
  table_id : Option ℤ
  table_page : Option ℤ
  table_label : Option String
  posDuplicate : Bool
  deriving DecidableEq

/-! ### Embedding of `_numeric_from_text` -/

def isDashChar (c : Char) : Bool := c = '−' || c = '–' || c = '—'

def isDiamChar (c : Char) : Bool :=
  c = 'Ø' || c = 'ø' || c = 'φ' || c = 'Φ' || c = '⌀' || c = '∅'

def isBracketChar (c : Char) : Bool :=
  c = '(' || c = ')' || c = '[' || c = ']' || c = '\x7b' || c = '\x7d' || c = '<' || c = '>'

/-- Embedding of `_numeric_from_text(text)`: normalize separator symbols to
spaces, strip enclosing brackets, blank out alphabetic characters (the
source collapses alphabetic runs to one space; number extraction cannot
distinguish the two), then extract all signed numbers. -/
def numericFromText (s : String) : List ℚ :=
  if s.data.isEmpty then []
  else
    let c1 := s.data.filter (fun c => c ≠ ',')
    let c2 := c1.map (fun c => if isDashChar c then '-' else c)
    let c3 := c2.map (fun c => if isDiamChar c then ' ' else c)
    let c4 := c3.map (fun c => if c = '×' || c = '·' || c = '*' then ' ' else c)
    let c5 := c4.map (fun c => if c = 'X' || c = 'x' then ' ' else c)
    let c6 := c5.map (fun c => if c = '\\' || c = '/' then ' ' else c)
    let c7 := c6.map (fun c => if c = ';' || c = ':' then ' ' else c)
    let c8 := stripEnds isBracketChar c7
    let c9 := c8.map (fun c => if c.isAlpha then ' ' else c)
    scanNumsSigned c9.length c9

/-! ### Embedding of the float conversions -/

/-- Python `float` on a string of digits and dots (everything else was
already stripped): defined iff there is at least one digit and at most one
dot. -/
def pyFloatDigitsDot (cs : List Char) : Option ℚ :=
  if cs.isEmpty then none
  else if cs.any (fun c => !(c.isDigit || c = '.')) then none
  else if 2 ≤ cs.count '.' then none
  else if cs.all (fun c => c = '.') then none
  else
    let ip := cs.takeWhile (fun c => c ≠ '.')
    let fp := (cs.dropWhile (fun c => c ≠ '.')).drop 1
    some (ratOfDigits false ip fp)

/-- Python `float` on a cleaned measurement cell that may retain a sign
(the grid-mode length column keeps `+` and `-`). -/
def pyFloatSigned (cs : List Char) : Option ℚ :=
  match cs with
  | '-' :: rest => (pyFloatDigitsDot rest).map (fun q => -q)
  | '+' :: rest => pyFloatDigitsDot rest
  | _ => pyFloatDigitsDot cs

/-! ### Embedding of `parse_table_row` (line-mode normalizer) -/

/-- Full match of the POS pattern `\d+(\.\d+)?`. -/
def isPosNumber (cs : List Char) : Bool :=
  let s1 := spanDigits cs
  !s1.1.isEmpty &&
    (s1.2.isEmpty ||
      (match s1.2 with
       | '.' :: r => !r.isEmpty && r.all Char.isDigit
       | _ => false))

def keepDigitsDotComma (cs : List Char) : List Char :=
  cs.filter (fun c => c.isDigit || c = '.' || c = ',')

def dropCommaChars (cs : List Char) : List Char := cs.filter (fun c => c ≠ ',')

def keepSignedNumChars (cs : List Char) : List Char :=
  cs.filter (fun c => c.isDigit || c = '.' || c = ',' || c = '+' || c = '-')

/-- Shared tail of the two accepting branches of `parse_table_row`:
description assembly and numeric parsing of the length token. -/
def parseRowTail (pos_token : List Char) (desc_tokens : List (List Char))
    (length_token_raw : List Char) (length_display : List Char) : Option Row :=
  if desc_tokens.isEmpty then none
  else
    let description := pyStrip (joinSpace desc_tokens)
    if description.isEmpty then none
    else
      let cleaned := dropCommaChars (keepDigitsDotComma length_token_raw)
      if cleaned.isEmpty then none
      else
        match pyFloatDigitsDot cleaned with
        | none => none
        | some v =>
          some
            { pos := String.mk pos_token
              description := String.mk description
              length := some v
              length_display := some (String.mk length_display)
              length_options := [v]
              thickness := none
              thickness_display := none
              quantity := none
              quantity_display := none
              callout_quantity_text := none
              table_id := none
              table_page := none
              table_label := none
              posDuplicate := false }

/-- Embedding of `parse_table_row(line)`. -/
def parse_table_row (line : String) : Option Row :=
  let tokens := pySplit line
  if tokens.length < 4 then none
  else
    let pos_token := tokens.headD []
    if !isPosNumber pos_token then none
    else
      let lastTok := tokens.getLastD []
      let lastLower := toLowerChars lastTok
      if lastLower = ['m', 'm'] then
        let length_token_raw := tokens.getD (tokens.length - 2) []
        let desc_tokens := (tokens.drop 1).dropLast.dropLast
        parseRowTail pos_token desc_tokens length_token_raw (length_token_raw ++ [' ', 'm', 'm'])
      else if ['m', 'm'].isSuffixOf lastLower then
        let length_token_raw := lastTok.dropLast.dropLast
        let desc_tokens := (tokens.drop 1).dropLast
        parseRowTail pos_token desc_tokens length_token_raw lastTok
      else none

/-! ### Embedding of the grid-mode measurement parsing
(`extract_rows_with_plumber`, measurement branch) -/

inductive MeasureTy where
  | length
  | size
  deriving DecidableEq

/-- The two measurement branches of the plumber row loop, on the stripped
cell text. -/
def plumberMeasurementRaw (ty : MeasureTy) (m : List Char) : Option (ℚ × List ℚ) :=
  match ty with
  | .length =>
    let cleaned := dropCommaChars (keepSignedNumChars m)
    if cleaned.isEmpty then none
    else (pyFloatSigned cleaned).map (fun v => (v, [v]))
  | .size =>
    let noCommas := dropCommaChars m
    let nums := scanNumsUnsigned noCommas.length noCommas
    match nums with
    | [] => none
    | v :: _ => some (v, nums)

/-- Embedding of the measurement-cell parsing of the plumber row loop,
including the guard on an empty cell and the final re-fill of empty
`length_options` (vacuous here, kept for faithfulness). -/
def plumberMeasurement (ty : MeasureTy) (raw : String) : Option (ℚ × List ℚ) :=
  let m := pyStrip raw.data
  if m.isEmpty then none
  else (plumberMeasurementRaw ty m).map (fun p => (p.1, if p.2.isEmpty then [p.1] else p.2))

/-! ### Embedding of `_pick_candidate` -/

/-- The descending order used by `sorted(candidates, reverse=True)`. -/
def geQ (a b : ℚ) : Prop := qle b a = true

instance : DecidableRel geQ := fun a b => instDecidableEqBool (qle b a) true

instance : IsTotal ℚ geQ :=
  ⟨fun a b => by
    simp only [geQ, qle, Bool.not_eq_true']
    exact (le_total b a).imp (fun h => h) (fun h => h)⟩

instance : IsTrans ℚ geQ :=
  ⟨fun a b c hab hbc => by
    simp only [geQ, qle, Bool.not_eq_true'] at hab hbc ⊢
    exact le_trans (show c ≤ b from hbc) (show b ≤ a from hab)⟩

/-- Strict comparison of the Python sort keys `(abs(v - e), -v)` used by
the `min(..., key=...)` call of `_pick_candidate`. -/
def closerKey (e a b : ℚ) : Bool :=
  qlt (qabs (qsub a e)) (qabs (qsub b e)) ||
    (qabs (qsub a e) = qabs (qsub b e) && qlt b a)

/-- Python `min(candidates, key=lambda v: (abs(v - expected), -v))`. -/
def closestPick (e : ℚ) : List ℚ → Option ℚ
  | [] => none
  | v :: rest => some (rest.foldl (fun best c => if closerKey e c best then c else best) v)

/-- Embedding of `_pick_candidate(candidates, expected_length, prefer_max)`;
both call sites use the default tolerance 0.5. -/
def pickCandidate (candidates : List ℚ) (expected : Option ℚ) (preferMax : Bool) :
    Option ℚ × String :=
  if candidates.isEmpty then (none, "none")
  else
    let ordered := List.insertionSort geQ candidates
    match expected with
    | none => (some (ordered.headD 0), "max_in_window")
    | some e =>
      if preferMax then
        match ordered.find? (fun v => qle (qabs (qsub v e)) qtol) with
        | some v => (some v, "match_expected")
        | none => (some (ordered.headD 0), "max_in_window")
      else
        (closestPick e candidates, "closest_to_expected")

/-! ### Embedding of the number filter of `_text_lookup` -/

/-- The candidate filter that `_text_lookup` applies to the numbers
extracted from the matched line and the following line when no explicit
number-with-mm pattern was found. -/
def textFallbackNumbers (numbers : List ℚ) (expected : Option ℚ) (descNumbers : List ℚ) :
    List ℚ :=
  let minThreshold : ℚ :=
    match expected with
    | some e => pymin 20 (pymax 1 (qhalf e))
    | none => 20
  numbers.filter (fun n =>
    qle minThreshold n && descNumbers.all (fun dn => qlt qeps (qabs (qsub n dn))))

/-! ### Embedding of `_analyze_pos_sequence` and the duplicate flagging -/

/-- Grouping key of a row: `table_id` when present, otherwise the
page-keyed fallback tuple. -/
inductive GroupKey where
  | table (id : ℤ)
  | page (p : Option ℤ)
  deriving DecidableEq

def groupKeyOf (r : Row) : GroupKey :=
  match r.table_id with
  | some t => .table t
  | none => .page r.table_page

/-- Append an indexed row to its group, creating the group at the end on
first use (Python dict `setdefault` followed by `append`). -/
def addToGroups (gs : List (GroupKey × List (ℕ × Row))) (k : GroupKey) (e : ℕ × Row) :
    List (GroupKey × List (ℕ × Row)) :=
  match gs with
  | [] => [(k, [e])]
  | (k', es) :: rest =>
    if k' = k then (k', es ++ [e]) :: rest else (k', es) :: addToGroups rest k e

def groupsOf (rows : List Row) : List (GroupKey × List (ℕ × Row)) :=
  rows.enum.foldl (fun gs e => addToGroups gs (groupKeyOf e.2) e) []

/-- Index order used by the per-group `entries.sort(key=lambda item: item[0])`. -/
def idxLe (a b : ℕ × Row) : Prop := a.1 ≤ b.1

instance : DecidableRel idxLe := fun a b => Nat.decLe a.1 b.1

instance : IsTotal (ℕ × Row) idxLe := ⟨fun a b => Nat.le_total a.1 b.1⟩

instance : IsTrans (ℕ × Row) idxLe := ⟨fun _ _ _ hab hbc => Nat.le_trans hab hbc⟩

/-- The per-group scan of `_analyze_pos_sequence`: `seen` maps each
non-blank position string to the index of its first occurrence, and on a
repeat both the current index and the remembered first index join the
duplicate set. -/
def scanGroup : List (ℕ × Row) → List (List Char × ℕ) → Finset ℕ → Finset ℕ
  | [], _, dups => dups
  | (i, r) :: rest, seen, dups =>
    let p := pyStrip r.pos.data
    if p.isEmpty then scanGroup rest seen dups
    else
      match seen.find? (fun s => s.1 = p) with
      | some s => scanGroup rest seen (insert s.2 (insert i dups))
      | none => scanGroup rest (seen ++ [(p, i)]) dups

/-- The `duplicate_indices` set of `_analyze_pos_sequence(rows)`. -/
def duplicateIndices (rows : List Row) : Finset ℕ :=
  (groupsOf rows).foldl
    (fun acc g => scanGroup (List.insertionSort idxLe g.2) [] acc) ∅

def emptyRow : Row :=
  { pos := "", description := "", length := none, length_display := none,
    length_options := [], thickness := none, thickness_display := none,
    quantity := none, quantity_display := none, callout_quantity_text := none,
    table_id := none, table_page := none, table_label := none, posDuplicate := false }

/-- The pipeline step that stamps `row["_pos_duplicate"] = idx in
duplicate_indices` on every row before the comparator runs. -/
def posDuplicateFlags (rows : List Row) : List Row :=
  rows.enum.map (fun e => { e.2 with posDuplicate := decide (e.1 ∈ duplicateIndices rows) })

/-! ### Embedding of `_find_length_above_bbox` -/

/-- Floor of a rational (kernel-reducible). -/
def qfloor (q : ℚ) : ℤ := Int.fdiv q.num q.den

def ratOfInt (n : ℤ) : ℚ := mkRat n 1

/-- Python `round` (banker's rounding): round half to even, everything
else to the nearest integer. -/
def pyRound (q : ℚ) : ℤ :=
  let f := qfloor q
  if qsub q (ratOfInt f) = qtol then (if f % 2 = 0 then f else f + 1)
  else qfloor (qadd q qtol)

/-- Line-group key `round(top / line_tol)` with `line_tol = 2.0`. -/
def lineKey (w : Word) : ℤ := pyRound (qhalf w.top)

/-- A line group of the upward scan: words sharing a rounded `top`, with
the group extremes maintained on insertion. -/
structure LineGroup where
  key : ℤ
  words : List Word
  top : ℚ
  bottom : ℚ
  deriving DecidableEq

/-- Dict-style insertion of a word into the line groups (`setdefault`
semantics, then update of the group extremes). -/
def addWordToGroups (gs : List LineGroup) (w : Word) : List LineGroup :=
  match gs with
  | [] => [{ key := lineKey w, words := [w], top := w.top, bottom := w.bottom }]
  | g :: rest =>
    if g.key = lineKey w then
      { g with
        words := g.words ++ [w]
        top := pymin g.top w.top
        bottom := pymax g.bottom w.bottom } :: rest
    else g :: addWordToGroups rest w

/-- Group the words above the callout into lines: a word takes part only
when `bottom < bbox_top - 1.0`. -/
def groupWords (bboxTop : ℚ) (words : List Word) : List LineGroup :=
  words.foldl
    (fun gs w => if qle (qsub bboxTop 1) w.bottom then gs else addWordToGroups gs w) []

/-- Descending-bottom order of `sorted(..., key=bottom, reverse=True)`. -/
def lineGE (a b : LineGroup) : Prop := qle b.bottom a.bottom = true

instance : DecidableRel lineGE := fun a b => instDecidableEqBool (qle b.bottom a.bottom) true

instance : IsTotal LineGroup lineGE :=
  ⟨fun a b => by
    simp only [lineGE, qle, Bool.not_eq_true']
    exact (le_total b.bottom a.bottom).imp (fun h => h) (fun h => h)⟩

instance : IsTrans LineGroup lineGE :=
  ⟨fun a b c hab hbc => by
    simp only [lineGE, qle, Bool.not_eq_true'] at hab hbc ⊢
    exact le_trans (show c.bottom ≤ b.bottom from hbc) (show b.bottom ≤ a.bottom from hab)⟩

/-- Ascending-`x0` order used for the words of one line. -/
def wordLE (a b : Word) : Prop := qle a.x0 b.x0 = true

instance : DecidableRel wordLE := fun a b => instDecidableEqBool (qle a.x0 b.x0) true

instance : IsTotal Word wordLE :=
  ⟨fun a b => by
    simp only [wordLE, qle, Bool.not_eq_true']
    exact (le_total a.x0 b.x0).imp (fun h => h) (fun h => h)⟩

instance : IsTrans Word wordLE :=
  ⟨fun a b c hab hbc => by
    simp only [wordLE, qle, Bool.not_eq_true'] at hab hbc ⊢
    exact le_trans (show a.x0 ≤ b.x0 from hab) (show b.x0 ≤ c.x0 from hbc)⟩

def sortLinesDesc (gs : List LineGroup) : List LineGroup := List.insertionSort lineGE gs

def sortWordsX0 (ws : List Word) : List Word := List.insertionSort wordLE ws

/-! #### The two barrier patterns -/

/-- ASCII word character of the `re` word boundary (the drawing texts the
source consumes are ASCII). -/
def isWordCharRe (c : Char) : Bool := c.isAlpha || c.isDigit || c = '_'

/-- Match of `\d+\.\d+\b\s+[A-Za-z]` starting exactly at the head. -/
def arrowLikeAt (cs : List Char) : Bool :=
  let s1 := spanDigits cs
  if s1.1.isEmpty then false
  else
    match s1.2 with
    | '.' :: r2 =>
      let s2 := spanDigits r2
      if s2.1.isEmpty then false
      else
        match s2.2 with
        | c :: _ =>
          if c.isWhitespace then
            match s2.2.dropWhile Char.isWhitespace with
            | d :: _ => d.isAlpha
            | [] => false
          else false
        | [] => false
    | _ => false

/-- Search of `re.search(r"\b\d+\.\d+\b\s+[A-Za-z]", line_text)`: try every
position whose predecessor is not a word character. -/
def arrowLikeSearch : Option Char → List Char → Bool
  | _, [] => false
  | prev, c :: rest =>
    ((match prev with | some p => !isWordCharRe p | none => true) && arrowLikeAt (c :: rest)) ||
      arrowLikeSearch (some c) rest

/-- Character class `[A-Za-z0-9._-]` of the parenthesized tag pattern. -/
def isTagChar (c : Char) : Bool := c.isAlpha || c.isDigit || c = '.' || c = '_' || c = '-'

/-- Match of the tag tail `(?:\s+[A-Za-z0-9._-]+)+\s*\)` at the head. -/
def tagTail : ℕ → List Char → Bool
  | 0, _ => false
  | fuel + 1, cs =>
    let ws := cs.span Char.isWhitespace
    if ws.1.isEmpty then false
    else
      let tk := ws.2.span isTagChar
      if tk.1.isEmpty then false
      else
        (match tk.2.dropWhile Char.isWhitespace with
         | ')' :: _ => true
         | _ => false) ||
          tagTail fuel tk.2

/-- Match of `\(\s*<pos>(?:\s+[A-Za-z0-9._-]+)+\s*\)` starting at the head. -/
def tagAt (pos : List Char) (cs : List Char) : Bool :=
  match cs with
  | '(' :: r1 =>
    let r2 := r1.dropWhile Char.isWhitespace
    if pos.isPrefixOf r2 then
      let rest := r2.drop pos.length
      tagTail (rest.length + 1) rest
    else false
  | _ => false

def tagSearch (pos : List Char) : List Char → Bool
  | [] => false
  | c :: rest => tagAt pos (c :: rest) || tagSearch pos rest

/-- Text of a line group, `" ".join` of its words sorted by `x0`. -/
def lineText (g : LineGroup) : List Char :=
  joinSpace ((sortWordsX0 g.words).map (fun w => w.text.data))

/-- Barrier test of one line: the other-callout pattern, or the
parenthesized tag echoing the position id (built only when the first
callout token is non-empty). -/
def isBarrierLine (calloutTokens : List (List Char)) (g : LineGroup) : Bool :=
  let ltxt := lineText g
  arrowLikeSearch none ltxt ||
    (match calloutTokens with
     | p :: _ => if p.isEmpty then false else tagSearch p ltxt
     | [] => false)

/-! #### The scan itself -/

/-- Horizontal window half-width `max(20, 0.6 * span width)` around the
callout span. -/
def xMargin (bbox : Bbox) : ℚ := pymax 20 (qmul (qsub bbox.x1 bbox.x0) (mkRat 3 5))

def windowLow (bbox : Bbox) : ℚ := qsub bbox.x0 (xMargin bbox)

def windowHigh (bbox : Bbox) : ℚ := qadd bbox.x1 (xMargin bbox)

def wordCenter (w : Word) : ℚ := qhalf (qadd w.x0 w.x1)

def calloutCenter (bbox : Bbox) : ℚ := qhalf (qadd bbox.x0 bbox.x1)

def inWindow (bbox : Bbox) (w : Word) : Bool :=
  qle (windowLow bbox) (wordCenter w) && qle (wordCenter w) (windowHigh bbox)

def sortedLines (words : List Word) (bbox : Bbox) : List LineGroup :=
  sortLinesDesc (groupWords bbox.top words)

/-- Walk the lines nearest-first, collecting the horizontally admissible
words of each line, and stop at the first barrier, remembering its bottom. -/
def scanBarrier (bar : LineGroup → Bool) (keep : Word → Bool) :
    List LineGroup → List Word × Option ℚ
  | [] => ([], none)
  | g :: rest =>
    if bar g then ([], some g.bottom)
    else
      let r := scanBarrier bar keep rest
      ((sortWordsX0 g.words).filter keep ++ r.1, r.2)

def scanResult (words : List Word) (bbox : Bbox) (calloutTokens : List (List Char)) :
    List Word × Option ℚ :=
  scanBarrier (isBarrierLine calloutTokens) (inWindow bbox) (sortedLines words bbox)

/-- The collected words after the barrier-bottom filter
`w.bottom >= barrier_bottom - 0.5`. -/
def collectedWords (words : List Word) (bbox : Bbox) (calloutTokens : List (List Char)) :
    List Word :=
  let r := scanResult words bbox calloutTokens
  match r.2 with
  | some bb => r.1.filter (fun w => qle (qsub bb qtol) w.bottom)
  | none => r.1

/-! #### Candidate entries, deduplication and ordering -/

structure CandEntry where
  value : ℚ
  centerOffset : ℚ
  bbox : Bbox
  deriving DecidableEq

def wordBbox (w : Word) : Bbox := { x0 := w.x0, x1 := w.x1, top := w.top, bottom := w.bottom }

/-- Exclusion of values equal (within 1e-6) to a description number. -/
def descNear (descNumbers : List ℚ) (v : ℚ) : Bool :=
  descNumbers.any (fun dn => qle (qabs (qsub v dn)) qeps)

/-- Process the numeric values of one collected word: skip description
numbers and already seen values, otherwise append a candidate entry and
remember the value. -/
def addWordEntries (descNumbers : List ℚ) (center : ℚ) (acc : List CandEntry × List ℚ)
    (w : Word) : List CandEntry × List ℚ :=
  (numericFromText w.text).foldl
    (fun acc2 v =>
      if descNear descNumbers v then acc2
      else if acc2.2.any (fun x => x = v) then acc2
      else
        (acc2.1 ++ [{ value := v, centerOffset := qabs (qsub (wordCenter w) center),
                      bbox := wordBbox w }],
         acc2.2 ++ [v]))
    acc

def buildEntries (ws : List Word) (descNumbers : List ℚ) (center : ℚ) : List CandEntry :=
  (ws.foldl (addWordEntries descNumbers center) ([], [])).1

/-- The entry order of `sort(key=lambda c: (-c["value"], c["center_offset"]))`. -/
def entryLE (a b : CandEntry) : Prop :=
  (qlt b.value a.value || (a.value = b.value && qle a.centerOffset b.centerOffset)) = true

instance : DecidableRel entryLE :=
  fun a b =>
    instDecidableEqBool (qlt b.value a.value || (a.value = b.value && qle a.centerOffset b.centerOffset)) true

instance : IsTotal CandEntry entryLE :=
  ⟨fun a b => by
    simp only [entryLE, Bool.or_eq_true, Bool.and_eq_true, decide_eq_true_eq, qlt, qle,
      Bool.not_eq_true']
    rcases lt_trichotomy a.value b.value with h | h | h
    · right; left; exact h
    · rcases le_total a.centerOffset b.centerOffset with h2 | h2
      · left; right; exact ⟨h, h2⟩
      · right; right; exact ⟨h.symm, h2⟩
    · left; left; exact h⟩

instance : IsTrans CandEntry entryLE :=
  ⟨fun a b c hab hbc => by
    simp only [entryLE, Bool.or_eq_true, Bool.and_eq_true, decide_eq_true_eq, qlt, qle,
      Bool.not_eq_true'] at hab hbc ⊢
    rcases hab with hab | ⟨hab1, hab2⟩ <;> rcases hbc with hbc | ⟨hbc1, hbc2⟩
    · left; exact lt_trans (show c.value < b.value from hbc) hab
    · left; exact hbc1 ▸ hab
    · left; exact hab1 ▸ hbc
    · right
      refine ⟨hab1.trans hbc1, le_trans (show a.centerOffset ≤ b.centerOffset from hab2) hbc2⟩⟩

def sortEntriesDesc (es : List CandEntry) : List CandEntry := List.insertionSort entryLE es

/-- Consecutive near-duplicate removal of the ordered value list
(`abs(v - ordered_values[-1]) > 1e-6` keeps a value). -/
def dedupValsGo : ℚ → List ℚ → List ℚ
  | _, [] => []
  | last, v :: rest =>
    if qlt qeps (qabs (qsub v last)) then v :: dedupValsGo v rest else dedupValsGo last rest

def dedupVals : List ℚ → List ℚ
  | [] => []
  | v :: rest => v :: dedupValsGo v rest

/-- First-wins association of a bounding box to each value
(`if v not in value_bboxes`). -/
def assignBboxes : List (ℚ × Bbox) → List CandEntry → List (ℚ × Bbox)
  | acc, [] => acc
  | acc, e :: rest =>
    if (acc.find? (fun p => p.1 = e.value)).isSome then assignBboxes acc rest
    else assignBboxes (acc ++ [(e.value, e.bbox)]) rest

def lookupBbox (m : List (ℚ × Bbox)) (v : ℚ) : Option Bbox :=
  (m.find? (fun p => p.1 = v)).map (fun p => p.2)

/-- Embedding of `_find_length_above_bbox(words, bbox, desc_numbers,
callout_tokens)`: the descending candidate values and the value-to-bbox
map. -/
def findLengthAboveBbox (words : List Word) (bbox : Bbox) (descNumbers : List ℚ)
    (calloutTokens : List (List Char)) : List ℚ × List (ℚ × Bbox) :=
  if words.isEmpty then ([], [])
  else if (groupWords bbox.top words).isEmpty then ([], [])
  else
    let collected := collectedWords words bbox calloutTokens
    let entries := buildEntries collected descNumbers (calloutCenter bbox)
    if entries.isEmpty then ([], [])
    else
      let sortedE := sortEntriesDesc entries
      (dedupVals (sortedE.map (fun e => e.value)), assignBboxes [] sortedE)

/-! ### Embedding of the per-row comparator (`compare_rows` body) -/

/-- The lookup metadata dict returned by `_geometry_lookup` and
`_text_lookup` (the fields the comparator consumes). -/
structure LookupMeta where
  method : Option String
  candidates : List ℚ
  selection : Option String
  quantity_tokens : Bool
  quantity_value : Option ℚ
  quantity_label : Option String
  deriving DecidableEq

/-- The empty dict used where a lookup was not performed. -/
def emptyMeta : LookupMeta :=
  { method := none, candidates := [], selection := none, quantity_tokens := false,
    quantity_value := none, quantity_label := none }

/-- One lookup outcome `(callout_found, value, page, meta)`. -/
structure LookupOutcome where
  callout : Bool
  value : Option ℚ
  page : Option ℕ
  meta : LookupMeta
  deriving DecidableEq

/-- The comparator output for one row (the `Result` record).  The
human-readable `failure_reasons` and `info_notes` strings are rendered
from the same boolean state and are not modelled. -/
structure RowResult where
  row : Row
  length_required : Bool
  callout_found : Bool
  length_found : Bool
  length_match : Bool
  drawing_length : Option ℚ
  drawing_page : Option ℕ
  thickness_required : Bool
  thickness_callout_found : Bool
  thickness_found : Bool
  thickness_match : Bool
  drawing_thickness : Option ℚ
  quantity_callout_found : Bool
  quantity_callout : Option ℚ
  quantity_callout_label : Option String
  quantity_tokens_detected : Bool
  status : String
  duplicate_position : Bool
  deriving DecidableEq

/-- Python `int(v)` on a float value: truncation toward zero. -/
def ratTrunc (q : ℚ) : ℤ := Int.tdiv q.num q.den

/-- The label the comparator renders from a bare quantity value:
near-integers via `str(int(v))`; the `%g` rendering of other values is
abstracted as the rational's own rendering (no verified property inspects
the text). -/
def pyFormatNum (v : ℚ) : String :=
  if qlt (qabs (qsub v (ratOfInt (ratTrunc v)))) qeps then toString (ratTrunc v)
  else toString v

/-- Python truthiness of an optional string. -/
def strTruthy : Option String → Bool
  | some s => !s.isEmpty
  | none => false

/-- The per-row body of `compare_rows`, with the two lookups supplied as
inputs (`lengthRes` is the `find_length_for_row` outcome; `thicknessRes`
is the `find_thickness_for_row` outcome, consulted only when the row
declares a thickness). -/
def compareRow (row : Row) (lengthRes : LookupOutcome) (thicknessRes : LookupOutcome) :
    RowResult :=
  let expected_lengths :=
    if row.length_options.isEmpty then
      (match row.length with | some l => [l] | none => [])
    else row.length_options
  let length_required := !expected_lengths.isEmpty
  let drawing_length := lengthRes.value
  let length_found := drawing_length.isSome
  let length_match :=
    match drawing_length with
    | some d =>
      if expected_lengths.isEmpty then !length_required
      else expected_lengths.any (fun e => qle (qabs (qsub d e)) qtol)
    | none => !length_required
  let thickness_expected := row.thickness
  let thickness_required := thickness_expected.isSome
  let thickness_callout := if thickness_required then thicknessRes.callout else false
  let drawing_thickness := if thickness_required then thicknessRes.value else none
  let thicknessMeta := if thickness_required then thicknessRes.meta else emptyMeta
  let thickness_found := drawing_thickness.isSome
  let thickness_match :=
    if thickness_required then
      match drawing_thickness, thickness_expected with
      | some t, some te => qle (qabs (qsub t te)) qtol
      | _, _ => false
    else true
  let callout_found := lengthRes.callout || thickness_callout
  let quantity_tokens_flag := lengthRes.meta.quantity_tokens || thicknessMeta.quantity_tokens
  let quantity_values := [lengthRes.meta.quantity_value, thicknessMeta.quantity_value].reduceOption
  let quantity_labels :=
    (match lengthRes.meta.quantity_label with
     | some s => if s.isEmpty then [] else [s]
     | none => []) ++
    (match thicknessMeta.quantity_label with
     | some s => if s.isEmpty then [] else [s]
     | none => [])
  let quantity_callout_value := quantity_values.head?
  let quantity_callout_label :=
    match quantity_labels.head? with
    | some l => some l
    | none =>
      match quantity_callout_value with
      | some v => some (pyFormatNum v)
      | none => none
  let quantity_callout_found :=
    strTruthy quantity_callout_label || quantity_callout_value.isSome
  let qFinal : Bool × Option ℚ × Option String :=
    if callout_found then (quantity_callout_found, quantity_callout_value, quantity_callout_label)
    else (false, none, none)
  let status :=
    if callout_found && length_match &&
        ((!thickness_required) || (thickness_found && thickness_match)) && !row.posDuplicate
    then "PASS" else "FAIL"
  { row := row
    length_required := length_required
    callout_found := callout_found
    length_found := length_found
    length_match := length_match
    drawing_length := drawing_length
    drawing_page := lengthRes.page
    thickness_required := thickness_required
    thickness_callout_found := thickness_callout
    thickness_found := thickness_found
    thickness_match := thickness_match
    drawing_thickness := drawing_thickness
    quantity_callout_found := qFinal.1
    quantity_callout := qFinal.2.1
    quantity_callout_label := qFinal.2.2
    quantity_tokens_detected := quantity_tokens_flag
    status := status
    duplicate_position := row.posDuplicate }

/-! ### Concrete inputs used by the witnesses and counterexamples -/

/-- A length-only BOM row (scenario A of the specification). -/
def rowBasePlate : Row :=
  { emptyRow with pos := "3", description := "BASE PLATE", length := some 250,
                  length_options := [250] }

/-- A lookup that found the callout and the value 250 on page 1. -/
def lookupFound250 : LookupOutcome :=
  { callout := true, value := some 250, page := some 1, meta := emptyMeta }

/-- A lookup that found no callout while its metadata still carries
quantity tokens (exercising the clearing of the quantity fields). -/
def lookupMissed : LookupOutcome :=
  { callout := false, value := none, page := none,
    meta := { emptyMeta with quantity_tokens := true, quantity_value := some 2,
                             quantity_label := some "2 PCS" } }

/-- An unused thickness lookup (the row declares no thickness). -/
def lookupIdle : LookupOutcome :=
  { callout := false, value := none, page := none, meta := emptyMeta }

/-- Rows for the duplicate-position witness: indices 0 and 2 share the
position 5 in table 1, index 1 is unique, index 3 has the same position in
a different table group. -/
def rowsDupSample : List Row :=
  [ { emptyRow with pos := "5", table_id := some 1 },
    { emptyRow with pos := "6", table_id := some 1 },
    { emptyRow with pos := "5", table_id := some 1 },
    { emptyRow with pos := "5", table_id := some 2 } ]

/-- The callout bounding box of the geometric witnesses: span 100..200,
top 100 (window half-width 60, window 40..260). -/
def bboxSample : Bbox := { x0 := 100, x1 := 200, top := 100, bottom := 110 }

/-- Words for the barrier witness: a number line directly above the
callout, a barrier line above it, and a further number above the barrier
that must not contribute. -/
def wordsBarrier : List Word :=
  [ { text := "999", x0 := 140, x1 := 160, top := 15, bottom := 20 },
    { text := "3.2", x0 := 100, x1 := 120, top := 25, bottom := 30 },
    { text := "TANK", x0 := 125, x1 := 160, top := 25, bottom := 30 },
    { text := "250", x0 := 40, x1 := 60, top := 50, bottom := 55 },
    { text := "400", x0 := 150, x1 := 170, top := 70, bottom := 75 } ]

/-- Words for the bbox-dedup counterexample: the value 250 occurs twice on
one line; the occurrence collected first (leftmost) is horizontally
farther from the callout center than the second. -/
def wordsDedup : List Word :=
  [ { text := "250", x0 := 40, x1 := 60, top := 50, bottom := 55 },
    { text := "250", x0 := 140, x1 := 160, top := 50, bottom := 55 } ]

/-- Strictly descending value list with consecutive gaps above the 1e-6
merge tolerance (the shape of the ordered candidate values). -/
def descChain : List ℚ → Bool
  | [] => true
  | [_] => true
  | a :: b :: r => qlt qeps (qsub a b) && descChain (b :: r)

/-- What the candidate builder records about one entry: its value is not a
description number, and its bounding box is that of the first collected
word whose numeric values contain the value. -/
def entryProp (descNumbers : List ℚ) (processed : List Word) (e : CandEntry) : Prop :=
  descNear descNumbers e.value = false ∧
  ∃ w, processed.find? (fun w => (numericFromText w.text).any (fun x => x = e.value)) = some w ∧
    e.bbox = wordBbox w ∧ e.value ∈ numericFromText w.text

/-- Membership of a value in the builder's seen set: admissible and
occurring in some processed word. -/
def seenProp (descNumbers : List ℚ) (processed : List Word) (v : ℚ) : Prop :=
  descNear descNumbers v = false ∧ ∃ w ∈ processed, v ∈ numericFromText w.text

/-- One step of the per-word value fold of the candidate builder (the
body of the loop in `addWordEntries`, named for the invariant proofs). -/
def entryStep (descNumbers : List ℚ) (center : ℚ) (w : Word)
    (acc2 : List CandEntry × List ℚ) (v : ℚ) : List CandEntry × List ℚ :=
  if descNear descNumbers v then acc2
  else if acc2.2.any (fun x => x = v) then acc2
  else (acc2.1 ++ [⟨v, qabs (qsub (wordCenter w) center), wordBbox w⟩], acc2.2 ++ [v])

/-- Indexed rows sharing a non-blank position: the order-independent
duplicate condition within one group's entry list. -/
def dupPred (es : List (ℕ × Row)) (i : ℕ) : Prop :=
  ∃ r, (i, r) ∈ es ∧ pyStrip r.pos.data ≠ [] ∧
    ∃ j r', (j, r') ∈ es ∧ j ≠ i ∧ pyStrip r'.pos.data = pyStrip r.pos.data

/-! ## Theorems

First the bridge lemmas identifying the kernel-reducible arithmetic with
the standard operations, then the helper lemmas, then one theorem per
specification claim. -/

theorem qlt_iff (a b : ℚ) : qlt a b = true ↔ a < b := Iff.rfl

theorem qle_iff (a b : ℚ) : qle a b = true ↔ a ≤ b := by
  simp only [qle, Bool.not_eq_true']
  exact ⟨fun h => h, fun h => h⟩

theorem geQ_iff (a b : ℚ) : geQ a b ↔ b ≤ a := by
  simp only [geQ, qle, Bool.not_eq_true']
  exact ⟨fun h => h, fun h => h⟩

theorem qadd_eq (a b : ℚ) : qadd a b = a + b := (Rat.add_def' a b).symm

theorem qsub_eq (a b : ℚ) : qsub a b = a - b := (Rat.sub_def' a b).symm

theorem qmul_eq (a b : ℚ) : qmul a b = a * b := by
  rw [Rat.mul_def, qmul, Rat.normalize_eq_mkRat]

theorem qabs_eq (a : ℚ) : qabs a = |a| := by
  unfold qabs
  split
  · next h => exact (abs_of_neg ((qlt_iff a 0).mp h)).symm
  · next h =>
    refine (abs_of_nonneg ?_).symm
    exact not_lt.mp (fun hl => h ((qlt_iff a 0).mpr hl))

theorem pymax_eq (a b : ℚ) : pymax a b = max a b := by
  unfold pymax
  rcases lt_or_ge a b with h | h
  · rw [if_pos ((qlt_iff a b).mpr h), max_eq_right h.le]
  · rw [if_neg (fun hc => absurd ((qlt_iff a b).mp hc) (not_lt.mpr h)), max_eq_left h]

theorem pymin_eq (a b : ℚ) : pymin a b = min a b := by
  unfold pymin
  rcases le_or_lt a b with h | h
  · rw [if_pos ((qle_iff a b).mpr h), min_eq_left h]
  · rw [if_neg (fun hc => absurd ((qle_iff a b).mp hc) (not_le.mpr h)), min_eq_right h.le]

theorem ratOfInt_eq (n : ℤ) : ratOfInt n = (n : ℚ) := by
  unfold ratOfInt
  rw [Rat.mkRat_one]

theorem qhalf_eq (a : ℚ) : qhalf a = a / 2 := by
  unfold qhalf
  rw [Rat.mkRat_eq_div]
  push_cast
  rw [div_mul_eq_div_div]
  rw [Rat.num_div_den]

theorem qeps_eq : qeps = 1 / 1000000 := by
  unfold qeps
  rw [Rat.mkRat_eq_div]
  norm_num

theorem qtol_eq : qtol = 1 / 2 := by
  unfold qtol
  rw [Rat.mkRat_eq_div]
  norm_num

/-! ### Claim C7: the text-fallback number filter -/

/-- C7, counterexample: with an expected value of 100 the extracted number
30 is retained by the filter although it is below the threshold
`max(1, 0.5 * expected) = 50` the claim states; the code caps the
threshold at 20. -/
theorem textFallback_threshold_cex :
    textFallbackNumbers [30] (some 100) [] = [30] ∧
      ¬ (max 1 ((100 : ℚ) / 2) ≤ 30) := by
  constructor
  · decide
  · norm_num

/-- C7 (amended): in the text fallback, an extracted number is retained
iff it is at least `min(20, max(1, 0.5 * expected))` (at least 20 with
no expected value) and differs by more than 1e-6 from every number of the
item's own description. -/
theorem textFallback_filter_iff (numbers : List ℚ) (expected : Option ℚ)
    (descNumbers : List ℚ) (n : ℚ) :
    n ∈ textFallbackNumbers numbers expected descNumbers ↔
      n ∈ numbers ∧
        (match expected with
         | some e => min 20 (max 1 (e / 2)) ≤ n
         | none => (20 : ℚ) ≤ n) ∧
        ∀ dn ∈ descNumbers, 1 / 1000000 < |n - dn| := by
  unfold textFallbackNumbers
  rw [List.mem_filter]
  cases expected with
  | none =>
    simp only [Bool.and_eq_true, qle_iff, List.all_eq_true, qlt_iff, qabs_eq, qsub_eq, qeps_eq,
      and_assoc]
  | some e =>
    simp only [Bool.and_eq_true, qle_iff, List.all_eq_true, qlt_iff, qabs_eq, qsub_eq, qeps_eq,
      pymin_eq, pymax_eq, qhalf_eq, and_assoc]

/-! ### Claim C1: the PASS verdict -/

/-- Boolean core of the verdict computation. -/
theorem pass_aux (cf lm tr tf tm dup : Bool) :
    (if cf && lm && ((!tr) || tf && tm) && !dup then "PASS" else "FAIL") = "PASS" ↔
      (cf = true ∧ lm = true ∧ (tr = false ∨ (tf = true ∧ tm = true)) ∧ dup = false) := by
  cases cf <;> cases lm <;> cases tr <;> cases tf <;> cases tm <;> cases dup <;> decide

/-- C1: a Result has status PASS iff the callout was found, the length
matched, the thickness is not required or was found and matched, and the
row is not flagged as a duplicate position; otherwise FAIL. -/
theorem status_pass_iff (row : Row) (lengthRes thicknessRes : LookupOutcome) :
    (compareRow row lengthRes thicknessRes).status = "PASS" ↔
      ((compareRow row lengthRes thicknessRes).callout_found = true ∧
        (compareRow row lengthRes thicknessRes).length_match = true ∧
        ((compareRow row lengthRes thicknessRes).thickness_required = false ∨
          ((compareRow row lengthRes thicknessRes).thickness_found = true ∧
            (compareRow row lengthRes thicknessRes).thickness_match = true)) ∧
        (compareRow row lengthRes thicknessRes).duplicate_position = false) := by
  dsimp only [compareRow]
  exact pass_aux _ _ _ _ _ _

/-! ### Claim C10: quantity fields cleared without a callout -/

/-- C10: when the callout was not found, the emitted Result reports no
quantity callout: the found flag is false and both the value and the label
are None, whatever the lookups detected. -/
theorem quantity_cleared_of_no_callout (row : Row) (lengthRes thicknessRes : LookupOutcome)
    (h : (compareRow row lengthRes thicknessRes).callout_found = false) :
    (compareRow row lengthRes thicknessRes).quantity_callout_found = false ∧
      (compareRow row lengthRes thicknessRes).quantity_callout = none ∧
      (compareRow row lengthRes thicknessRes).quantity_callout_label = none := by
  dsimp only [compareRow] at h ⊢
  rw [h]
  exact ⟨rfl, rfl, rfl⟩

/-- C10, witness: a concrete row whose lookup failed while still carrying
quantity metadata. -/
theorem quantity_cleared_of_no_callout_witness :
    (compareRow rowBasePlate lookupMissed lookupIdle).quantity_callout_found = false ∧
      (compareRow rowBasePlate lookupMissed lookupIdle).quantity_callout = none ∧
      (compareRow rowBasePlate lookupMissed lookupIdle).quantity_callout_label = none :=
  quantity_cleared_of_no_callout rowBasePlate lookupMissed lookupIdle (by decide)

/-! ### Claim C2: the meaning of a length match -/

/-- C2: for a row that declares a length, the comparator reports
length_match exactly when a drawing value was found within 0.5 of some
entry of `length_options` (any entry of a multi-value size cell, not only
the first). -/
theorem length_match_iff (row : Row) (lengthRes thicknessRes : LookupOutcome)
    (h : row.length_options ≠ []) :
    (compareRow row lengthRes thicknessRes).length_match = true ↔
      ∃ d, (compareRow row lengthRes thicknessRes).drawing_length = some d ∧
        ∃ v ∈ row.length_options, |d - v| ≤ 1 / 2 := by
  have hne : row.length_options.isEmpty = false := by
    cases hrow : row.length_options
    · exact absurd hrow h
    · rfl
  dsimp only [compareRow]
  simp only [hne, Bool.false_eq_true, if_false]
  cases hv : lengthRes.value with
  | none => simp
  | some d =>
    simp only [List.any_eq_true, qle_iff, qabs_eq, qsub_eq, qtol_eq, Option.some.injEq]
    constructor
    · rintro ⟨v, hvmem, hle⟩
      exact ⟨d, rfl, v, hvmem, hle⟩
    · rintro ⟨d', hd', v, hvmem, hle⟩
      cases hd'
      exact ⟨v, hvmem, hle⟩

/-- C2, witness: the scenario-A row with a found drawing value 250. -/
theorem length_match_iff_witness :
    (compareRow rowBasePlate lookupFound250 lookupIdle).length_match = true ↔
      ∃ d, (compareRow rowBasePlate lookupFound250 lookupIdle).drawing_length = some d ∧
        ∃ v ∈ rowBasePlate.length_options, |d - v| ≤ 1 / 2 :=
  length_match_iff rowBasePlate lookupFound250 lookupIdle (by decide)

/-! ### Claim C9: the length-options invariant -/

theorem ratOfDigits_false_nonneg (ip fp : List Char) : 0 ≤ ratOfDigits false ip fp := by
  unfold ratOfDigits
  dsimp only
  rw [if_neg (by simp), Rat.mkRat_eq_div]
  positivity

theorem pyFloatDigitsDot_nonneg {cs : List Char} {v : ℚ} (h : pyFloatDigitsDot cs = some v) :
    0 ≤ v := by
  unfold pyFloatDigitsDot at h
  split at h
  · exact absurd h (by simp)
  · split at h
    · exact absurd h (by simp)
    · split at h
      · exact absurd h (by simp)
      · split at h
        · exact absurd h (by simp)
        · cases h
          exact ratOfDigits_false_nonneg _ _

theorem scanNumsUnsigned_nonneg :
    ∀ (fuel : ℕ) (cs : List Char), ∀ v ∈ scanNumsUnsigned fuel cs, 0 ≤ v := by
  intro fuel
  induction fuel with
  | zero => intro cs v hv; simp [scanNumsUnsigned] at hv
  | succ fuel ih =>
    intro cs v hv
    cases cs with
    | nil => simp [scanNumsUnsigned] at hv
    | cons c rest =>
      rw [scanNumsUnsigned] at hv
      split at hv
      · rcases List.mem_cons.mp hv with h | h
        · exact h ▸ ratOfDigits_false_nonneg _ _
        · exact ih _ v h
      · exact ih _ v hv

theorem parseRowTail_some {p : List Char} {d : List (List Char)} {raw disp : List Char}
    {r : Row} (h : parseRowTail p d raw disp = some r) :
    ∃ v, pyFloatDigitsDot (dropCommaChars (keepDigitsDotComma raw)) = some v ∧
      r.length_options = [v] := by
  unfold parseRowTail at h
  dsimp only at h
  split at h
  · exact absurd h (by simp)
  · split at h
    · exact absurd h (by simp)
    · split at h
      · exact absurd h (by simp)
      · split at h
        · exact absurd h (by simp)
        · next v hv =>
          cases h
          exact ⟨v, hv, rfl⟩

/-- C9, counterexample: a grid-mode length cell retains its sign, so the
cell text -250 produces the single negative entry -250 in
`length_options`, violating the claimed nonnegativity. -/
theorem plumber_negative_length_cex :
    plumberMeasurement MeasureTy.length "-250" = some (-250, [-250]) ∧ ((-250 : ℚ) < 0) := by
  constructor
  · decide
  · norm_num

/-- C9 (amended): `length_options` is never empty when a length was
declared, and its entries are nonnegative for size-typed grid cells and
for line-mode rows; a length-typed grid cell keeps the sign of the cell
text, so its single entry may be negative. -/
theorem length_options_invariant :
    (∀ ty raw v opts, plumberMeasurement ty raw = some (v, opts) →
        opts ≠ [] ∧ (ty = MeasureTy.size → ∀ x ∈ opts, 0 ≤ x)) ∧
    (∀ line r, parse_table_row line = some r →
        r.length_options ≠ [] ∧ ∀ x ∈ r.length_options, 0 ≤ x) := by
  constructor
  · intro ty raw v opts h
    unfold plumberMeasurement at h
    dsimp only at h
    split at h
    · exact absurd h (by simp)
    · cases hr : plumberMeasurementRaw ty (pyStrip raw.data) with
      | none => rw [hr] at h; exact absurd h (by simp)
      | some p =>
        rw [hr] at h
        simp only [Option.map_some', Option.some.injEq, Prod.mk.injEq] at h
        obtain ⟨hv, hopts⟩ := h
        constructor
        · rw [← hopts]
          split
          · simp
          · next hemp => simpa using hemp
        · intro hty x hx
          subst hty
          unfold plumberMeasurementRaw at hr
          dsimp only at hr
          rcases hnums : scanNumsUnsigned (dropCommaChars (pyStrip raw.data)).length
              (dropCommaChars (pyStrip raw.data)) with _ | ⟨v1, rest⟩
          · rw [hnums] at hr; exact absurd hr (by simp)
          · rw [hnums] at hr
            simp only [Option.some.injEq] at hr
            have hp2 : p.2 = v1 :: rest := by rw [← hr]
            have hp1 : p.1 = v1 := by rw [← hr]
            rw [← hopts] at hx
            rw [hp2] at hx
            simp only [List.isEmpty_cons, Bool.false_eq_true, if_false] at hx
            have : x ∈ scanNumsUnsigned (dropCommaChars (pyStrip raw.data)).length
                (dropCommaChars (pyStrip raw.data)) := by
              rw [hnums]; exact hx
            exact scanNumsUnsigned_nonneg _ _ x this
  · intro line r h
    unfold parse_table_row at h
    dsimp only at h
    split at h
    · exact absurd h (by simp)
    · split at h
      · exact absurd h (by simp)
      · split at h
        · obtain ⟨v, hv, hopts⟩ := parseRowTail_some h
          rw [hopts]
          exact ⟨by simp, by simpa using pyFloatDigitsDot_nonneg hv⟩
        · split at h
          · obtain ⟨v, hv, hopts⟩ := parseRowTail_some h
            rw [hopts]
            exact ⟨by simp, by simpa using pyFloatDigitsDot_nonneg hv⟩
          · exact absurd h (by simp)

/-- C9, witness: the size cell 100 X 50 yields the non-empty nonnegative
option list [100, 50]. -/
theorem length_options_invariant_witness :
    ([100, 50] : List ℚ) ≠ [] ∧
      (MeasureTy.size = MeasureTy.size → ∀ x ∈ ([100, 50] : List ℚ), 0 ≤ x) :=
  length_options_invariant.1 MeasureTy.size "100 X 50" 100 [100, 50] (by decide)

/-! ### Claim C6: line-mode row acceptance -/

theorem mem_dropWhile_of_not {α : Type} {p : α → Bool} :
    ∀ {l : List α} {x : α}, x ∈ l → p x = false → x ∈ l.dropWhile p := by
  intro l
  induction l with
  | nil => intro x hx; simp at hx
  | cons a t ih =>
    intro x hx hpx
    rw [List.dropWhile_cons]
    split
    · next hpa =>
      rcases List.mem_cons.mp hx with rfl | hxt
      · rw [hpx] at hpa; cases hpa
      · exact ih hxt hpx
    · exact hx

theorem pyStrip_ne_nil {cs : List Char} {c : Char} (hc : c ∈ cs)
    (hw : c.isWhitespace = false) : pyStrip cs ≠ [] := by
  intro h
  unfold pyStrip at h
  rw [List.reverse_eq_nil_iff] at h
  rw [List.dropWhile_eq_nil_iff] at h
  have h1 : c ∈ (cs.dropWhile Char.isWhitespace).reverse := by
    rw [List.mem_reverse]
    exact mem_dropWhile_of_not hc hw
  have := h c h1
  rw [hw] at this
  cases this

theorem splitWsAux_tokens :
    ∀ (cs acc : List Char), (∀ c ∈ acc, c.isWhitespace = false) →
      ∀ t ∈ splitWsAux cs acc, t ≠ [] ∧ ∀ c ∈ t, c.isWhitespace = false := by
  intro cs
  induction cs with
  | nil =>
    intro acc hacc t ht
    rw [splitWsAux] at ht
    split at ht
    · simp at ht
    · next hne =>
      rcases List.mem_singleton.mp ht with rfl
      refine ⟨by simpa [List.isEmpty_iff] using hne, ?_⟩
      intro c hc
      exact hacc c (List.mem_reverse.mp hc)
  | cons a rest ih =>
    intro acc hacc t ht
    rw [splitWsAux] at ht
    split at ht
    · next hws =>
      split at ht
      · exact ih [] (by simp) t ht
      · next hne =>
        rcases List.mem_cons.mp ht with rfl | ht2
        · refine ⟨by simpa [List.isEmpty_iff] using hne, ?_⟩
          intro c hc
          exact hacc c (List.mem_reverse.mp hc)
        · exact ih [] (by simp) t ht2
    · next hws =>
      refine ih (a :: acc) ?_ t ht
      intro c hc
      rcases List.mem_cons.mp hc with rfl | hc2
      · exact Bool.not_eq_true _ ▸ by simpa using hws
      · exact hacc c hc2

theorem pySplit_tokens (s : String) :
    ∀ t ∈ pySplit s, t ≠ [] ∧ ∀ c ∈ t, c.isWhitespace = false :=
  splitWsAux_tokens s.data [] (by simp)

theorem joinSpace_cons (t : List Char) (rest : List (List Char)) :
    ∃ tail, joinSpace (t :: rest) = t ++ tail := by
  cases rest with
  | nil => exact ⟨[], by simp [joinSpace]⟩
  | cons u us => exact ⟨' ' :: joinSpace (u :: us), rfl⟩

/-- The description built from a non-empty list of non-blank
whitespace-free tokens survives the final strip. -/
theorem description_ne_nil {d : List (List Char)} (hd : d ≠ [])
    (hall : ∀ t ∈ d, t ≠ [] ∧ ∀ c ∈ t, c.isWhitespace = false) :
    pyStrip (joinSpace d) ≠ [] := by
  obtain ⟨t, rest, rfl⟩ := List.exists_cons_of_ne_nil hd
  obtain ⟨ht, hcs⟩ := hall t (by simp)
  obtain ⟨c, ct, rfl⟩ := List.exists_cons_of_ne_nil ht
  obtain ⟨tail, hj⟩ := joinSpace_cons (c :: ct) rest
  rw [hj]
  exact pyStrip_ne_nil (by simp) (hcs c (by simp))

theorem parseRowTail_isSome (p : List Char) (d : List (List Char)) (raw disp : List Char)
    (hd : d ≠ [] → pyStrip (joinSpace d) ≠ []) :
    (parseRowTail p d raw disp).isSome = true ↔
      d ≠ [] ∧ (pyFloatDigitsDot (dropCommaChars (keepDigitsDotComma raw))).isSome = true := by
  unfold parseRowTail
  dsimp only
  split
  · next he => simp [List.isEmpty_iff.mp he]
  · next he =>
    have hdne : d ≠ [] := by simpa [List.isEmpty_iff] using he
    split
    · next hemp => exact absurd (List.isEmpty_iff.mp hemp) (hd hdne)
    · split
      · next hemp =>
        have : dropCommaChars (keepDigitsDotComma raw) = [] := List.isEmpty_iff.mp hemp
        rw [this]
        simp [hdne, pyFloatDigitsDot]
      · split
        · next hnone => simp [hdne, hnone]
        · next v hsome => simp [hdne, hsome]

/-- C6, counterexample: the line 3 BASE PLATE X 250 has four or more
tokens, a bare POS number first and a bare numeric last token, yet the
parser rejects it: a bare number without the mm suffix never qualifies. -/
theorem parse_row_bare_number_cex :
    parse_table_row "3 BASE PLATE X 250" = none ∧
      4 ≤ (pySplit "3 BASE PLATE X 250").length ∧
      isPosNumber ((pySplit "3 BASE PLATE X 250").headD []) = true ∧
      (pyFloatDigitsDot (dropCommaChars (keepDigitsDotComma
        ((pySplit "3 BASE PLATE X 250").getLastD [])))).isSome = true := by
  decide

/-- C6 (amended): a line is accepted as a table row iff it splits into at
least 4 whitespace-separated tokens, the first token is a bare POS number,
and either the last token is exactly the unit mm with a parsable numeric
token before it, or the last token carries the mm suffix with a parsable
numeric prefix; a bare numeric last token does not qualify. -/
theorem parse_row_accept_iff (line : String) :
    (parse_table_row line).isSome = true ↔
      (4 ≤ (pySplit line).length ∧
        isPosNumber ((pySplit line).headD []) = true ∧
        ((toLowerChars ((pySplit line).getLastD []) = ['m', 'm'] ∧
           (pyFloatDigitsDot (dropCommaChars (keepDigitsDotComma
             ((pySplit line).getD ((pySplit line).length - 2) [])))).isSome = true) ∨
         (toLowerChars ((pySplit line).getLastD []) ≠ ['m', 'm'] ∧
           ['m', 'm'].isSuffixOf (toLowerChars ((pySplit line).getLastD [])) = true ∧
           (pyFloatDigitsDot (dropCommaChars (keepDigitsDotComma
             (((pySplit line).getLastD []).dropLast.dropLast)))).isSome = true))) := by
  unfold parse_table_row
  dsimp only
  split
  · next hlt =>
    simp only [Option.isSome_none, Bool.false_eq_true, false_iff]
    rintro ⟨h4, -⟩
    omega
  · next hlt =>
    have h4 : 4 ≤ (pySplit line).length := by omega
    split
    · next hpos =>
      simp only [Option.isSome_none, Bool.false_eq_true, false_iff]
      rintro ⟨-, hp, -⟩
      rw [hp] at hpos
      simp at hpos
    · next hpos =>
      have hpt : isPosNumber ((pySplit line).headD []) = true := by
        simpa using hpos
      split
      · next hmm =>
        rw [parseRowTail_isSome]
        · constructor
          · rintro ⟨-, hfl⟩
            exact ⟨h4, hpt, Or.inl ⟨hmm, hfl⟩⟩
          · rintro ⟨-, -, hor⟩
            rcases hor with ⟨-, hfl⟩ | ⟨hne, -, -⟩
            · refine ⟨?_, hfl⟩
              have hlen : (((pySplit line).drop 1).dropLast.dropLast).length =
                  (pySplit line).length - 3 := by
                simp only [List.length_dropLast, List.length_drop]
                omega
              intro hnil
              rw [hnil] at hlen
              simp at hlen
              omega
            · exact absurd hmm hne
        · intro hd
          apply description_ne_nil hd
          intro t ht
          refine pySplit_tokens line t ?_
          exact (((List.dropLast_sublist _).trans
            ((List.dropLast_sublist _).trans (List.drop_sublist 1 _))).subset) ht
      · next hmm =>
        split
        · next hsuf =>
          rw [parseRowTail_isSome]
          · constructor
            · rintro ⟨-, hfl⟩
              exact ⟨h4, hpt, Or.inr ⟨hmm, by simpa using hsuf, hfl⟩⟩
            · rintro ⟨-, -, hor⟩
              rcases hor with ⟨heq, -⟩ | ⟨-, -, hfl⟩
              · exact absurd heq hmm
              · refine ⟨?_, hfl⟩
                have hlen : (((pySplit line).drop 1).dropLast).length =
                    (pySplit line).length - 2 := by
                  simp only [List.length_dropLast, List.length_drop]
                  omega
                intro hnil
                rw [hnil] at hlen
                simp at hlen
                omega
          · intro hd
            apply description_ne_nil hd
            intro t ht
            refine pySplit_tokens line t ?_
            exact (((List.dropLast_sublist _).trans (List.drop_sublist 1 _)).subset) ht
        · next hsuf =>
          simp only [Option.isSome_none, Bool.false_eq_true, false_iff]
          rintro ⟨-, -, hor⟩
          rcases hor with ⟨heq, -⟩ | ⟨-, hs, -⟩
          · exact absurd heq hmm
          · exact absurd hs (by simpa using hsuf)

/-! ### Claim C4: candidate selection -/

theorem sortDesc_mem (l : List ℚ) (v : ℚ) : v ∈ List.insertionSort geQ l ↔ v ∈ l :=
  (List.perm_insertionSort geQ l).mem_iff

theorem sortDesc_headD_max {l : List ℚ} (h : l ≠ []) :
    (List.insertionSort geQ l).headD 0 ∈ l ∧
      ∀ c ∈ l, c ≤ (List.insertionSort geQ l).headD 0 := by
  have hperm := List.perm_insertionSort geQ l
  have hne : List.insertionSort geQ l ≠ [] := by
    intro he
    rw [he] at hperm
    exact h hperm.symm.eq_nil
  obtain ⟨a, t, hat⟩ := List.exists_cons_of_ne_nil hne
  have hsorted : List.Sorted geQ (a :: t) := hat ▸ List.sorted_insertionSort geQ l
  rw [hat]
  simp only [List.headD_cons]
  constructor
  · exact (sortDesc_mem l a).mp (hat ▸ List.mem_cons_self a t)
  · intro c hc
    have hc2 : c ∈ a :: t := hat ▸ (sortDesc_mem l c).mpr hc
    rcases List.mem_cons.mp hc2 with rfl | hct
    · exact le_refl c
    · exact (geQ_iff a c).mp (List.rel_of_sorted_cons hsorted c hct)

theorem find?_sorted_geQ_max {l : List ℚ} (hs : List.Sorted geQ l) {p : ℚ → Bool} {v : ℚ}
    (h : l.find? p = some v) : ∀ c ∈ l, p c = true → c ≤ v := by
  induction l with
  | nil => simp at h
  | cons a t ih =>
    intro c hc hpc
    by_cases hpa : p a = true
    · rw [List.find?_cons_of_pos _ hpa] at h
      cases h
      rcases List.mem_cons.mp hc with rfl | hct
      · exact le_refl c
      · exact (geQ_iff v c).mp (List.rel_of_sorted_cons hs c hct)
    · rw [List.find?_cons_of_neg _ hpa] at h
      rcases List.mem_cons.mp hc with rfl | hct
      · exact absurd hpc hpa
      · exact ih hs.of_cons h c hct hpc

/-- The claimed better-than-or-equal relation of the closest-candidate
selection: strictly nearer to the expected value, or equally near and at
least as large. -/
theorem closerKey_iff (e a b : ℚ) :
    closerKey e a b = true ↔ (|a - e| < |b - e| ∨ (|a - e| = |b - e| ∧ b < a)) := by
  unfold closerKey
  simp only [Bool.or_eq_true, Bool.and_eq_true, qlt_iff, qabs_eq, qsub_eq, decide_eq_true_eq]

theorem btr_trans {e a b c : ℚ}
    (h1 : |a - e| < |b - e| ∨ (|a - e| = |b - e| ∧ b ≤ a))
    (h2 : |b - e| < |c - e| ∨ (|b - e| = |c - e| ∧ c ≤ b)) :
    |a - e| < |c - e| ∨ (|a - e| = |c - e| ∧ c ≤ a) := by
  rcases h1 with h1 | ⟨h1e, h1le⟩ <;> rcases h2 with h2 | ⟨h2e, h2le⟩
  · exact Or.inl (h1.trans h2)
  · exact Or.inl (h2e ▸ h1)
  · exact Or.inl (h1e ▸ h2)
  · exact Or.inr ⟨h1e.trans h2e, h2le.trans h1le⟩

theorem closestPick_foldl (e : ℚ) :
    ∀ (t : List ℚ) (init : ℚ),
      (t.foldl (fun best c => if closerKey e c best then c else best) init = init ∨
        t.foldl (fun best c => if closerKey e c best then c else best) init ∈ t) ∧
      (|t.foldl (fun best c => if closerKey e c best then c else best) init - e| < |init - e| ∨
        (|t.foldl (fun best c => if closerKey e c best then c else best) init - e| = |init - e| ∧
          init ≤ t.foldl (fun best c => if closerKey e c best then c else best) init)) ∧
      ∀ c ∈ t,
        (|t.foldl (fun best c => if closerKey e c best then c else best) init - e| < |c - e| ∨
          (|t.foldl (fun best c => if closerKey e c best then c else best) init - e| = |c - e| ∧
            c ≤ t.foldl (fun best c => if closerKey e c best then c else best) init)) := by
  intro t
  induction t with
  | nil =>
    intro init
    refine ⟨Or.inl rfl, Or.inr ⟨rfl, le_refl _⟩, by simp⟩
  | cons c t ih =>
    intro init
    rw [List.foldl_cons]
    obtain ⟨ihmem, ihbtr, ihall⟩ := ih (if closerKey e c init then c else init)
    have hstep : |(if closerKey e c init then c else init) - e| < |init - e| ∨
        (|(if closerKey e c init then c else init) - e| = |init - e| ∧
          init ≤ (if closerKey e c init then c else init)) := by
      split
      · next hck =>
        rcases (closerKey_iff e c init).mp hck with h | ⟨he, hlt⟩
        · exact Or.inl h
        · exact Or.inr ⟨he, hlt.le⟩
      · exact Or.inr ⟨rfl, le_refl _⟩
    refine ⟨?_, btr_trans ihbtr hstep, ?_⟩
    · rcases ihmem with heq | hmem
      · rw [heq]
        split
        · exact Or.inr (List.mem_cons_self _ _)
        · exact Or.inl rfl
      · exact Or.inr (List.mem_cons_of_mem _ hmem)
    · intro x hx
      rcases List.mem_cons.mp hx with rfl | hxt
      · by_cases hck : closerKey e x init = true
        · rw [if_pos hck] at ihbtr ihmem ihall ⊢
          exact ihbtr
        · rw [if_neg hck] at ihbtr ihmem ihall ⊢
          have hbi : |init - e| < |x - e| ∨ (|init - e| = |x - e| ∧ x ≤ init) := by
            rcases lt_trichotomy (|init - e|) (|x - e|) with h | h | h
            · exact Or.inl h
            · refine Or.inr ⟨h, ?_⟩
              by_contra hxi
              exact hck ((closerKey_iff e x init).mpr (Or.inr ⟨h.symm, not_le.mp hxi⟩))
            · exact absurd ((closerKey_iff e x init).mpr (Or.inl h)) hck
          exact btr_trans ihbtr hbi
      · exact ihall x hxt

theorem closestPick_spec (e : ℚ) {l : List ℚ} (h : l ≠ []) :
    ∃ v, closestPick e l = some v ∧ v ∈ l ∧
      ∀ c ∈ l, |v - e| < |c - e| ∨ (|v - e| = |c - e| ∧ c ≤ v) := by
  obtain ⟨a, t, rfl⟩ := List.exists_cons_of_ne_nil h
  obtain ⟨hmem, hbtr, hall⟩ := closestPick_foldl e t a
  refine ⟨_, rfl, ?_, ?_⟩
  · rcases hmem with heq | hmem
    · rw [heq]; exact List.mem_cons_self a t
    · exact List.mem_cons_of_mem _ hmem
  · intro c hc
    rcases List.mem_cons.mp hc with rfl | hct
    · exact hbtr
    · exact hall c hct

theorem pickPred_iff (e c : ℚ) :
    (qle (qabs (qsub c e)) qtol = true) ↔ |c - e| ≤ 1 / 2 := by
  rw [qle_iff, qabs_eq, qsub_eq, qtol_eq]

/-- C4: on a non-empty candidate list the selection behaves as specified:
with no expected value the largest candidate wins with mode
max_in_window; with prefer_max the largest candidate within 0.5 of the
expected value wins with mode match_expected when one exists, else the
largest with max_in_window; without prefer_max the candidate nearest the
expected value wins with mode closest_to_expected, distance ties broken
toward the larger value. -/
theorem pick_candidate_spec (cands : List ℚ) (expected : Option ℚ) (preferMax : Bool)
    (hne : cands ≠ []) :
    (expected = none →
      (pickCandidate cands expected preferMax).2 = "max_in_window" ∧
        ∃ v, (pickCandidate cands expected preferMax).1 = some v ∧ v ∈ cands ∧
          ∀ c ∈ cands, c ≤ v) ∧
    (∀ e, expected = some e → preferMax = true →
      ((∃ c ∈ cands, |c - e| ≤ 1 / 2) →
        (pickCandidate cands expected preferMax).2 = "match_expected" ∧
          ∃ v, (pickCandidate cands expected preferMax).1 = some v ∧ v ∈ cands ∧
            |v - e| ≤ 1 / 2 ∧ ∀ c ∈ cands, |c - e| ≤ 1 / 2 → c ≤ v) ∧
      ((∀ c ∈ cands, ¬(|c - e| ≤ 1 / 2)) →
        (pickCandidate cands expected preferMax).2 = "max_in_window" ∧
          ∃ v, (pickCandidate cands expected preferMax).1 = some v ∧ v ∈ cands ∧
            ∀ c ∈ cands, c ≤ v)) ∧
    (∀ e, expected = some e → preferMax = false →
      (pickCandidate cands expected preferMax).2 = "closest_to_expected" ∧
        ∃ v, (pickCandidate cands expected preferMax).1 = some v ∧ v ∈ cands ∧
          ∀ c ∈ cands, |v - e| < |c - e| ∨ (|v - e| = |c - e| ∧ c ≤ v)) := by
  have hemp : cands.isEmpty = false := by
    cases hc : cands
    · exact absurd hc hne
    · rfl
  refine ⟨?_, ?_, ?_⟩
  · rintro rfl
    unfold pickCandidate
    simp only [hemp, Bool.false_eq_true, if_false]
    obtain ⟨hm, hmax⟩ := sortDesc_headD_max hne
    exact ⟨by trivial, _, by trivial, hm, hmax⟩
  · rintro e rfl rfl
    constructor
    · rintro ⟨c0, hc0, hc0tol⟩
      unfold pickCandidate
      simp only [hemp, Bool.false_eq_true, if_false]
      cases hfind : (List.insertionSort geQ cands).find?
          (fun v => qle (qabs (qsub v e)) qtol) with
      | none =>
        rw [List.find?_eq_none] at hfind
        exact absurd ((pickPred_iff e c0).mpr hc0tol)
          (hfind c0 ((sortDesc_mem cands c0).mpr hc0))
      | some v =>
        simp only [hfind]
        refine ⟨rfl, v, rfl, ?_, ?_, ?_⟩
        · exact (sortDesc_mem cands v).mp (List.mem_of_find?_eq_some hfind)
        · exact (pickPred_iff e v).mp (by simpa using List.find?_some hfind)
        · intro c hc hctol
          exact find?_sorted_geQ_max (List.sorted_insertionSort geQ cands) hfind c
            ((sortDesc_mem cands c).mpr hc) ((pickPred_iff e c).mpr hctol)
    · intro hnone
      unfold pickCandidate
      simp only [hemp, Bool.false_eq_true, if_false]
      cases hfind : (List.insertionSort geQ cands).find?
          (fun v => qle (qabs (qsub v e)) qtol) with
      | none =>
        simp only [hfind]
        obtain ⟨hm, hmax⟩ := sortDesc_headD_max hne
        exact ⟨by trivial, _, by trivial, hm, hmax⟩
      | some v =>
        have hv : v ∈ cands := (sortDesc_mem cands v).mp (List.mem_of_find?_eq_some hfind)
        exact absurd ((pickPred_iff e v).mp (by simpa using List.find?_some hfind)) (hnone v hv)
  · rintro e rfl rfl
    unfold pickCandidate
    simp only [hemp, Bool.false_eq_true, if_false]
    obtain ⟨v, hpick, hv, hall⟩ := closestPick_spec e hne
    exact ⟨by trivial, v, hpick, hv, hall⟩

/-- C4, witness: the list [100, 400] with expected value 250 and
prefer_max false selects 400 (distance tie toward the larger value). -/
theorem pick_candidate_spec_witness :
    ((some (250 : ℚ) : Option ℚ) = none →
      (pickCandidate [100, 400] (some 250) false).2 = "max_in_window" ∧
        ∃ v, (pickCandidate [100, 400] (some 250) false).1 = some v ∧
          v ∈ ([100, 400] : List ℚ) ∧ ∀ c ∈ ([100, 400] : List ℚ), c ≤ v) ∧
    (∀ e, (some (250 : ℚ) : Option ℚ) = some e → false = true →
      ((∃ c ∈ ([100, 400] : List ℚ), |c - e| ≤ 1 / 2) →
        (pickCandidate [100, 400] (some 250) false).2 = "match_expected" ∧
          ∃ v, (pickCandidate [100, 400] (some 250) false).1 = some v ∧
            v ∈ ([100, 400] : List ℚ) ∧ |v - e| ≤ 1 / 2 ∧
            ∀ c ∈ ([100, 400] : List ℚ), |c - e| ≤ 1 / 2 → c ≤ v) ∧
      ((∀ c ∈ ([100, 400] : List ℚ), ¬(|c - e| ≤ 1 / 2)) →
        (pickCandidate [100, 400] (some 250) false).2 = "max_in_window" ∧
          ∃ v, (pickCandidate [100, 400] (some 250) false).1 = some v ∧
            v ∈ ([100, 400] : List ℚ) ∧ ∀ c ∈ ([100, 400] : List ℚ), c ≤ v)) ∧
    (∀ e, (some (250 : ℚ) : Option ℚ) = some e → false = false →
      (pickCandidate [100, 400] (some 250) false).2 = "closest_to_expected" ∧
        ∃ v, (pickCandidate [100, 400] (some 250) false).1 = some v ∧
          v ∈ ([100, 400] : List ℚ) ∧
          ∀ c ∈ ([100, 400] : List ℚ), |v - e| < |c - e| ∨ (|v - e| = |c - e| ∧ c ≤ v)) :=
  pick_candidate_spec [100, 400] (some 250) false (by decide)

/-! ### Claim C5: duplicate-position detection -/

theorem dupPred_mono {es es' : List (ℕ × Row)} (hsub : ∀ e ∈ es, e ∈ es') {i : ℕ}
    (h : dupPred es i) : dupPred es' i := by
  obtain ⟨r, hm, hnb, j, r', hm', hj, hpos⟩ := h
  exact ⟨r, hsub _ hm, hnb, j, r', hsub _ hm', hj, hpos⟩

theorem dupPred_perm {es es' : List (ℕ × Row)} (hp : List.Perm es es') (i : ℕ) :
    dupPred es i ↔ dupPred es' i :=
  ⟨dupPred_mono (fun e he => hp.mem_iff.mp he), dupPred_mono (fun e he => hp.mem_iff.mpr he)⟩

/-- Appending a blank-position row changes no duplicate status. -/
theorem dupPred_append_blank {pre : List (ℕ × Row)} {i0 : ℕ} {r0 : Row}
    (hblank : pyStrip r0.pos.data = []) (i : ℕ) :
    dupPred (pre ++ [(i0, r0)]) i ↔ dupPred pre i := by
  constructor
  · rintro ⟨r, hm, hnb, j, r', hm', hj, hpos⟩
    rcases List.mem_append.mp hm with hm | hm
    · rcases List.mem_append.mp hm' with hm' | hm'
      · exact ⟨r, hm, hnb, j, r', hm', hj, hpos⟩
      · rcases List.mem_singleton.mp hm' with h0
        have : r' = r0 := congrArg Prod.snd h0
        rw [this, hblank] at hpos
        exact absurd hpos.symm hnb
    · rcases List.mem_singleton.mp hm with h0
      have : r = r0 := congrArg Prod.snd h0
      rw [this, hblank] at hnb
      exact absurd rfl hnb
  · exact dupPred_mono (fun e he => List.mem_append_left _ he)

/-- Appending a row whose position occurs nowhere in the prefix changes no
duplicate status when its index is fresh. -/
theorem dupPred_append_fresh {pre : List (ℕ × Row)} {i0 : ℕ} {r0 : Row}
    (hfresh : ∀ r, (i0, r) ∉ pre)
    (hnopos : ∀ j r', (j, r') ∈ pre → pyStrip r'.pos.data ≠ pyStrip r0.pos.data) (i : ℕ) :
    dupPred (pre ++ [(i0, r0)]) i ↔ dupPred pre i := by
  constructor
  · rintro ⟨r, hm, hnb, j, r', hm', hj, hpos⟩
    rcases List.mem_append.mp hm with hm | hm
    · rcases List.mem_append.mp hm' with hm' | hm'
      · exact ⟨r, hm, hnb, j, r', hm', hj, hpos⟩
      · rcases List.mem_singleton.mp hm' with h0
        have hr' : r' = r0 := congrArg Prod.snd h0
        rw [hr'] at hpos
        exact absurd hpos.symm (hnopos i r hm)
    · rcases List.mem_singleton.mp hm with h0
      have hi : i = i0 := congrArg Prod.fst h0
      have hr : r = r0 := congrArg Prod.snd h0
      rcases List.mem_append.mp hm' with hm' | hm'
      · exact absurd (hr ▸ hpos) (hnopos j r' hm')
      · rcases List.mem_singleton.mp hm' with h1
        exact absurd (hi ▸ congrArg Prod.fst h1) hj
  · exact dupPred_mono (fun e he => List.mem_append_left _ he)

theorem scanGroup_invariant :
    ∀ (es pre : List (ℕ × Row)) (seen : List (List Char × ℕ)) (dups acc : Finset ℕ),
      (∀ p j, (p, j) ∈ seen → ∃ r, (j, r) ∈ pre ∧ pyStrip r.pos.data = p) →
      (∀ j r, (j, r) ∈ pre → pyStrip r.pos.data ≠ [] →
        ∃ j', (pyStrip r.pos.data, j') ∈ seen) →
      (∀ i, i ∈ dups ↔ i ∈ acc ∨ dupPred pre i) →
      ((pre ++ es).map Prod.fst).Nodup →
      ∀ i, i ∈ scanGroup es seen dups ↔ i ∈ acc ∨ dupPred (pre ++ es) i := by
  intro es
  induction es with
  | nil =>
    intro pre seen dups acc hseen1 hseen2 hdups hnd i
    rw [scanGroup, List.append_nil]
    exact hdups i
  | cons e rest ih =>
    rcases e with ⟨i0, r0⟩
    intro pre seen dups acc hseen1 hseen2 hdups hnd i
    have hassoc : pre ++ (i0, r0) :: rest = (pre ++ [(i0, r0)]) ++ rest := by simp
    have hfresh : ∀ r, (i0, r) ∉ pre := by
      intro r hr
      have hmap : i0 ∈ pre.map Prod.fst := List.mem_map.mpr ⟨(i0, r), hr, rfl⟩
      have : (pre.map Prod.fst ++ (i0 :: rest.map Prod.fst)).Nodup := by
        simpa using hnd
      obtain ⟨-, -, hdisj⟩ := List.nodup_append.mp this
      exact hdisj hmap (List.mem_cons_self _ _)
    have hnd' : (((pre ++ [(i0, r0)]) ++ rest).map Prod.fst).Nodup := by
      rw [← hassoc]; exact hnd
    rw [scanGroup]
    split
    · next hblank =>
      have hblank' : pyStrip r0.pos.data = [] := List.isEmpty_iff.mp hblank
      rw [hassoc]
      refine ih (pre ++ [(i0, r0)]) seen dups acc ?_ ?_ ?_ hnd' i
      · intro p j hpj
        obtain ⟨r, hm, he⟩ := hseen1 p j hpj
        exact ⟨r, List.mem_append_left _ hm, he⟩
      · intro j r hm hnb
        rcases List.mem_append.mp hm with hm | hm
        · exact hseen2 j r hm hnb
        · rcases List.mem_singleton.mp hm with h0
          have : r = r0 := congrArg Prod.snd h0
          rw [this, hblank'] at hnb
          exact absurd rfl hnb
      · intro k
        rw [dupPred_append_blank hblank' k]
        exact hdups k
    · next hblank =>
      have hnb0 : pyStrip r0.pos.data ≠ [] := by
        simpa [List.isEmpty_iff] using hblank
      split
      · next s hfind =>
        have hs1 : s.1 = pyStrip r0.pos.data := by
          have := List.find?_some hfind
          simpa using this
        have hsmem : s ∈ seen := List.mem_of_find?_eq_some hfind
        obtain ⟨r1, hr1mem, hr1pos⟩ := hseen1 s.1 s.2 (by
          rcases s with ⟨sp, sj⟩
          exact hsmem)
        have hr1p : pyStrip r1.pos.data = pyStrip r0.pos.data := by rw [hr1pos, hs1]
        have hs2ne : s.2 ≠ i0 := by
          intro he
          exact hfresh r1 (he ▸ hr1mem)
        rw [hassoc]
        refine ih (pre ++ [(i0, r0)]) seen (insert s.2 (insert i0 dups)) acc ?_ ?_ ?_ hnd' i
        · intro p j hpj
          obtain ⟨r, hm, he⟩ := hseen1 p j hpj
          exact ⟨r, List.mem_append_left _ hm, he⟩
        · intro j r hm hnb
          rcases List.mem_append.mp hm with hm | hm
          · exact hseen2 j r hm hnb
          · rcases List.mem_singleton.mp hm with h0
            have hr : r = r0 := congrArg Prod.snd h0
            refine ⟨s.2, ?_⟩
            rw [hr, ← hs1]
            rcases s with ⟨sp, sj⟩
            exact hsmem
        · intro k
          simp only [Finset.mem_insert]
          constructor
          · rintro (rfl | rfl | hk)
            · right
              refine ⟨r1, List.mem_append_left _ hr1mem, by rw [hr1p]; exact hnb0, i0, r0,
                List.mem_append_right _ (List.mem_singleton_self _), ?_, hr1p.symm⟩
              exact fun he => hs2ne he.symm
            · right
              refine ⟨r0, List.mem_append_right _ (List.mem_singleton_self _), hnb0, s.2, r1,
                List.mem_append_left _ hr1mem, hs2ne, hr1p⟩
            · rcases (hdups k).mp hk with hk | hk
              · exact Or.inl hk
              · exact Or.inr (dupPred_mono (fun e he => List.mem_append_left _ he) hk)
          · rintro (hk | hk)
            · right; right; exact (hdups k).mpr (Or.inl hk)
            · obtain ⟨r, hm, hnb, j, r', hm', hj, hpos⟩ := hk
              rcases List.mem_append.mp hm with hm | hm
              · rcases List.mem_append.mp hm' with hm' | hm'
                · right; right
                  exact (hdups k).mpr (Or.inr ⟨r, hm, hnb, j, r', hm', hj, hpos⟩)
                · rcases List.mem_singleton.mp hm' with h0
                  have hr' : r' = r0 := congrArg Prod.snd h0
                  by_cases hks : s.2 = k
                  · exact Or.inl hks.symm
                  · right; right
                    refine (hdups k).mpr (Or.inr ⟨r, hm, hnb, s.2, r1, hr1mem, hks, ?_⟩)
                    rw [hr'] at hpos
                    rw [hr1p]
                    exact hpos
              · rcases List.mem_singleton.mp hm with h0
                have hk0 : k = i0 := congrArg Prod.fst h0
                exact Or.inr (Or.inl hk0)
      · next hfind =>
        have hnone : ∀ s ∈ seen, ¬(s.1 = pyStrip r0.pos.data) := by
          intro s hs
          have := List.find?_eq_none.mp hfind s hs
          simpa using this
        have hnopos : ∀ j r', (j, r') ∈ pre →
            pyStrip r'.pos.data ≠ pyStrip r0.pos.data := by
          intro j r' hm heq
          by_cases hb : pyStrip r'.pos.data = []
          · rw [hb] at heq; exact hnb0 heq.symm
          · obtain ⟨j', hj'⟩ := hseen2 j r' hm hb
            exact hnone (pyStrip r'.pos.data, j') hj' (by simpa using heq)
        rw [hassoc]
        refine ih (pre ++ [(i0, r0)]) (seen ++ [(pyStrip r0.pos.data, i0)]) dups acc ?_ ?_ ?_
          hnd' i
        · intro p j hpj
          rcases List.mem_append.mp hpj with hpj | hpj
          · obtain ⟨r, hm, he⟩ := hseen1 p j hpj
            exact ⟨r, List.mem_append_left _ hm, he⟩
          · rcases List.mem_singleton.mp hpj with h0
            have hp : p = pyStrip r0.pos.data := congrArg Prod.fst h0
            have hj : j = i0 := congrArg Prod.snd h0
            exact ⟨r0, List.mem_append_right _ (by rw [hj]; exact List.mem_singleton_self _),
              hp.symm⟩
        · intro j r hm hnb
          rcases List.mem_append.mp hm with hm | hm
          · obtain ⟨j', hj'⟩ := hseen2 j r hm hnb
            exact ⟨j', List.mem_append_left _ hj'⟩
          · rcases List.mem_singleton.mp hm with h0
            have hr : r = r0 := congrArg Prod.snd h0
            exact ⟨i0, List.mem_append_right _ (by rw [hr]; exact List.mem_singleton_self _)⟩
        · intro k
          rw [dupPred_append_fresh hfresh hnopos k]
          exact hdups k

theorem scanGroup_mem (es : List (ℕ × Row)) (hnd : (es.map Prod.fst).Nodup) (acc : Finset ℕ)
    (i : ℕ) : i ∈ scanGroup es [] acc ↔ i ∈ acc ∨ dupPred es i := by
  have := scanGroup_invariant es [] [] acc acc
    (by intro p j hpj; simp at hpj)
    (by intro j r hm; simp at hm)
    (by
      intro k
      constructor
      · exact Or.inl
      · rintro (hk | ⟨r, hm, -⟩)
        · exact hk
        · simp at hm)
    (by simpa using hnd)
  simpa using this i

theorem addToGroups_map_fst (gs : List (GroupKey × List (ℕ × Row))) (k : GroupKey)
    (e : ℕ × Row) :
    (addToGroups gs k e).map Prod.fst =
      if k ∈ gs.map Prod.fst then gs.map Prod.fst else gs.map Prod.fst ++ [k] := by
  induction gs with
  | nil => simp [addToGroups]
  | cons g rest ih =>
    rcases g with ⟨g1, g2⟩
    rw [addToGroups]
    by_cases hk : g1 = k
    · subst hk
      rw [if_pos rfl]
      simp only [List.map_cons]
      rw [if_pos (List.mem_cons_self _ _)]
    · rw [if_neg hk]
      simp only [List.map_cons]
      rw [ih]
      by_cases hmem : k ∈ rest.map Prod.fst
      · rw [if_pos hmem, if_pos (List.mem_cons_of_mem _ hmem)]
      · have hnc : k ∉ g1 :: rest.map Prod.fst := by
          intro hc
          rcases List.mem_cons.mp hc with hc | hc
          · exact hk hc.symm
          · exact hmem hc
        rw [if_neg hmem, if_neg hnc, List.cons_append]

theorem addToGroups_mem_iff {gs : List (GroupKey × List (ℕ × Row))}
    (hnd : (gs.map Prod.fst).Nodup) (k : GroupKey) (e : ℕ × Row)
    (p : GroupKey × List (ℕ × Row)) :
    p ∈ addToGroups gs k e ↔
      ((p.1 ≠ k ∧ p ∈ gs) ∨
        (p.1 = k ∧ ((∃ es, (k, es) ∈ gs ∧ p.2 = es ++ [e]) ∨
          ((∀ es, (k, es) ∉ gs) ∧ p.2 = [e])))) := by
  induction gs with
  | nil =>
    rw [addToGroups]
    constructor
    · intro hp
      rcases List.mem_singleton.mp hp with rfl
      exact Or.inr ⟨rfl, Or.inr ⟨by simp, rfl⟩⟩
    · rintro (⟨-, hmem⟩ | ⟨h1, (⟨es, hes, -⟩ | ⟨-, h2⟩)⟩)
      · simp at hmem
      · simp at hes
      · rcases p with ⟨p1, p2⟩
        rw [List.mem_singleton]
        dsimp only at h1 h2
        rw [h1, h2]
  | cons g rest ih =>
    have hnd2 : (rest.map Prod.fst).Nodup := (List.nodup_cons.mp (by simpa using hnd)).2
    have hg1 : g.1 ∉ rest.map Prod.fst := (List.nodup_cons.mp (by simpa using hnd)).1
    rcases g with ⟨g1, g2⟩
    rw [addToGroups]
    by_cases hk : g1 = k
    · subst hk
      rw [if_pos rfl]
      rw [List.mem_cons]
      constructor
      · rintro (rfl | hp)
        · exact Or.inr ⟨rfl, Or.inl ⟨g2, List.mem_cons_self _ _, rfl⟩⟩
        · have hp1 : p.1 ≠ g1 := by
            intro h
            exact hg1 (h ▸ List.mem_map.mpr ⟨p, hp, rfl⟩)
          exact Or.inl ⟨hp1, List.mem_cons_of_mem _ hp⟩
      · rintro (⟨hne, hmem⟩ | ⟨heq, (⟨es, hes, he2⟩ | ⟨hnone, -⟩)⟩)
        · rcases List.mem_cons.mp hmem with rfl | hmem2
          · exact absurd rfl hne
          · exact Or.inr hmem2
        · rcases List.mem_cons.mp hes with hes | hes
          · injection hes with hes1 hes2
            subst hes2
            left
            rcases p with ⟨p1, p2⟩
            dsimp only at heq he2
            rw [heq, he2]
          · exact absurd (List.mem_map.mpr ⟨(g1, es), hes, rfl⟩) hg1
        · exact absurd (List.mem_cons_self (g1, g2) rest) (hnone g2)
    · rw [if_neg hk]
      rw [List.mem_cons, ih hnd2]
      constructor
      · rintro (rfl | (⟨hne, hmem⟩ | ⟨heq, hrest⟩))
        · exact Or.inl ⟨fun hc => hk hc, List.mem_cons_self _ _⟩
        · exact Or.inl ⟨hne, List.mem_cons_of_mem _ hmem⟩
        · refine Or.inr ⟨heq, ?_⟩
          rcases hrest with ⟨es, hes, he2⟩ | ⟨hnone, he2⟩
          · exact Or.inl ⟨es, List.mem_cons_of_mem _ hes, he2⟩
          · refine Or.inr ⟨?_, he2⟩
            intro es hes
            rcases List.mem_cons.mp hes with hes | hes
            · injection hes with hes1 hes2
              exact hk hes1.symm
            · exact hnone es hes
      · rintro (⟨hne, hmem⟩ | ⟨heq, hrest⟩)
        · rcases List.mem_cons.mp hmem with rfl | hmem2
          · exact Or.inl rfl
          · exact Or.inr (Or.inl ⟨hne, hmem2⟩)
        · refine Or.inr (Or.inr ⟨heq, ?_⟩)
          rcases hrest with ⟨es, hes, he2⟩ | ⟨hnone, he2⟩
          · rcases List.mem_cons.mp hes with hes | hes
            · injection hes with hes1 hes2
              exact absurd hes1.symm hk
            · exact Or.inl ⟨es, hes, he2⟩
          · exact Or.inr ⟨fun es hes => hnone es (List.mem_cons_of_mem _ hes), he2⟩

theorem groupsFold_invariant :
    ∀ (l pre : List (ℕ × Row)) (gs : List (GroupKey × List (ℕ × Row))),
      (∀ p ∈ gs, p.2 = pre.filter (fun x => groupKeyOf x.2 = p.1)) →
      (∀ x ∈ pre, ∃ es, (groupKeyOf x.2, es) ∈ gs) →
      ((gs.map Prod.fst).Nodup) →
      ((∀ p ∈ l.foldl (fun acc x => addToGroups acc (groupKeyOf x.2) x) gs,
          p.2 = (pre ++ l).filter (fun x => groupKeyOf x.2 = p.1)) ∧
        (∀ x ∈ pre ++ l, ∃ es, (groupKeyOf x.2, es) ∈
          l.foldl (fun acc x => addToGroups acc (groupKeyOf x.2) x) gs) ∧
        ((l.foldl (fun acc x => addToGroups acc (groupKeyOf x.2) x) gs).map Prod.fst).Nodup) := by
  intro l
  induction l with
  | nil =>
    intro pre gs h1 h2 h3
    rw [List.foldl_nil, List.append_nil]
    exact ⟨h1, h2, h3⟩
  | cons e rest ih =>
    intro pre gs h1 h2 h3
    rw [List.foldl_cons]
    have hassoc : pre ++ e :: rest = (pre ++ [e]) ++ rest := by simp
    have h1' : ∀ p ∈ addToGroups gs (groupKeyOf e.2) e,
        p.2 = (pre ++ [e]).filter (fun x => groupKeyOf x.2 = p.1) := by
      intro p hp
      rcases (addToGroups_mem_iff h3 _ e p).mp hp with ⟨hne, hmem⟩ | ⟨heq, hrest⟩
      · rw [h1 p hmem, List.filter_append]
        have hemp : [e].filter (fun x => groupKeyOf x.2 = p.1) = [] := by
          simp only [List.filter_cons, List.filter_nil]
          rw [if_neg]
          simp only [decide_eq_true_eq]
          exact fun hc => hne hc.symm
        rw [hemp, List.append_nil]
      · rcases hrest with ⟨es, hes, he2⟩ | ⟨hnone, he2⟩
        · have hes2 := h1 _ hes
          dsimp only at hes2
          rw [he2, List.filter_append, heq]
          have hone : [e].filter (fun x => groupKeyOf x.2 = groupKeyOf e.2) = [e] := by
            simp
          rw [hone, hes2]
        · rw [he2, List.filter_append, heq]
          have hone : [e].filter (fun x => groupKeyOf x.2 = groupKeyOf e.2) = [e] := by
            simp
          have hemp : pre.filter (fun x => groupKeyOf x.2 = groupKeyOf e.2) = [] := by
            rw [List.filter_eq_nil_iff]
            intro x hx
            simp only [decide_eq_true_eq]
            intro hc
            obtain ⟨es, hes⟩ := h2 x hx
            rw [hc] at hes
            exact hnone es hes
          rw [hone, hemp, List.nil_append]
    have h2' : ∀ x ∈ pre ++ [e], ∃ es, (groupKeyOf x.2, es) ∈
        addToGroups gs (groupKeyOf e.2) e := by
      intro x hx
      rcases List.mem_append.mp hx with hx | hx
      · obtain ⟨es, hes⟩ := h2 x hx
        by_cases hkx : groupKeyOf x.2 = groupKeyOf e.2
        · refine ⟨es ++ [e], (addToGroups_mem_iff h3 _ e _).mpr ?_⟩
          exact Or.inr ⟨hkx, Or.inl ⟨es, hkx ▸ hes, rfl⟩⟩
        · exact ⟨es, (addToGroups_mem_iff h3 _ e _).mpr (Or.inl ⟨hkx, hes⟩)⟩
      · rcases List.mem_singleton.mp hx with rfl
        by_cases hex : ∃ es, (groupKeyOf x.2, es) ∈ gs
        · obtain ⟨es, hes⟩ := hex
          exact ⟨es ++ [x], (addToGroups_mem_iff h3 _ x _).mpr
            (Or.inr ⟨rfl, Or.inl ⟨es, hes, rfl⟩⟩)⟩
        · exact ⟨[x], (addToGroups_mem_iff h3 _ x _).mpr
            (Or.inr ⟨rfl, Or.inr ⟨fun es hes => hex ⟨es, hes⟩, rfl⟩⟩)⟩
    have h3' : ((addToGroups gs (groupKeyOf e.2) e).map Prod.fst).Nodup := by
      rw [addToGroups_map_fst]
      split
      · exact h3
      · next hnm =>
        rw [List.nodup_append]
        exact ⟨h3, List.nodup_singleton _, by
          intro a ha hamem
          rcases List.mem_singleton.mp hamem with rfl
          exact hnm ha⟩
    have := ih (pre ++ [e]) (addToGroups gs (groupKeyOf e.2) e) h1' h2' h3'
    rw [hassoc]
    exact this

theorem groupsOf_char (rows : List Row) :
    (∀ p ∈ groupsOf rows, p.2 = rows.enum.filter (fun x => groupKeyOf x.2 = p.1)) ∧
      (∀ x ∈ rows.enum, ∃ es, (groupKeyOf x.2, es) ∈ groupsOf rows) := by
  have := groupsFold_invariant rows.enum [] [] (by simp) (by simp) (by simp)
  rw [List.nil_append] at this
  exact ⟨this.1, this.2.1⟩

theorem duplicateIndices_mem (rows : List Row) (i : ℕ) :
    i ∈ duplicateIndices rows ↔ ∃ p ∈ groupsOf rows, dupPred p.2 i := by
  have hnd : ∀ p ∈ groupsOf rows, (p.2.map Prod.fst).Nodup := by
    intro p hp
    have hchar := (groupsOf_char rows).1 p hp
    rw [hchar]
    have hsub : List.Sublist ((rows.enum.filter (fun x => groupKeyOf x.2 = p.1)).map Prod.fst)
        (rows.enum.map Prod.fst) := (List.filter_sublist _).map _
    refine List.Nodup.sublist hsub ?_
    rw [List.enum_map_fst]
    exact List.nodup_range _
  unfold duplicateIndices
  suffices h : ∀ (gps : List (GroupKey × List (ℕ × Row))) (acc : Finset ℕ),
      (∀ p ∈ gps, (p.2.map Prod.fst).Nodup) →
      (i ∈ gps.foldl (fun acc g => scanGroup (List.insertionSort idxLe g.2) [] acc) acc ↔
        i ∈ acc ∨ ∃ p ∈ gps, dupPred p.2 i) by
    rw [h (groupsOf rows) ∅ hnd]
    simp
  intro gps
  induction gps with
  | nil =>
    intro acc hn
    simp
  | cons g rest ihg =>
    intro acc hn
    rw [List.foldl_cons]
    rw [ihg _ (fun p hp => hn p (List.mem_cons_of_mem _ hp))]
    have hperm : List.Perm (List.insertionSort idxLe g.2) g.2 := List.perm_insertionSort _ _
    have hnds : ((List.insertionSort idxLe g.2).map Prod.fst).Nodup := by
      refine (List.Perm.nodup_iff (hperm.map Prod.fst)).mpr ?_
      exact hn g (List.mem_cons_self _ _)
    rw [scanGroup_mem _ hnds acc i]
    rw [dupPred_perm hperm i]
    constructor
    · rintro ((hacc | hdup) | ⟨p, hp, hd⟩)
      · exact Or.inl hacc
      · exact Or.inr ⟨g, List.mem_cons_self _ _, hdup⟩
      · exact Or.inr ⟨p, List.mem_cons_of_mem _ hp, hd⟩
    · rintro (hacc | ⟨p, hp, hd⟩)
      · exact Or.inl (Or.inl hacc)
      · rcases List.mem_cons.mp hp with rfl | hp2
        · exact Or.inl (Or.inr hd)
        · exact Or.inr ⟨p, hp2, hd⟩

theorem duplicateIndices_iff (rows : List Row) (i : ℕ) (h : i < rows.length) :
    i ∈ duplicateIndices rows ↔
      (pyStrip ((rows.getD i emptyRow).pos.data) ≠ [] ∧
        ∃ j, j < rows.length ∧ j ≠ i ∧
          groupKeyOf (rows.getD j emptyRow) = groupKeyOf (rows.getD i emptyRow) ∧
          pyStrip ((rows.getD j emptyRow).pos.data) =
            pyStrip ((rows.getD i emptyRow).pos.data)) := by
  have hgetD : ∀ (j : ℕ) (hj : j < rows.length), rows.getD j emptyRow = rows.get ⟨j, hj⟩ := by
    intro j hj
    rw [List.getD_eq_getElem rows emptyRow hj]
    rfl
  have henum : ∀ (j : ℕ) (r : Row), (j, r) ∈ rows.enum ↔ rows.get? j = some r := by
    intro j r
    rw [List.mk_mem_enum_iff_get?]
  rw [duplicateIndices_mem]
  constructor
  · rintro ⟨p, hp, r, hmr, hnb, j, r', hmr', hj, hpos⟩
    have hchar := (groupsOf_char rows).1 p hp
    rw [hchar] at hmr hmr'
    have hmr1 := List.mem_of_mem_filter hmr
    have hmr2 := List.mem_of_mem_filter hmr'
    have hkey1 : groupKeyOf r = p.1 := by
      have := List.of_mem_filter hmr
      simpa using this
    have hkey2 : groupKeyOf r' = p.1 := by
      have := List.of_mem_filter hmr'
      simpa using this
    have hri : rows.get? i = some r := (henum i r).mp hmr1
    have hrj : rows.get? j = some r' := (henum j r').mp hmr2
    have hjlt : j < rows.length := by
      have := List.get?_eq_some.mp hrj
      exact this.1
    have hilt : i < rows.length := h
    have hgi : rows.getD i emptyRow = r := by
      rw [hgetD i hilt]
      have := List.get?_eq_some.mp hri
      obtain ⟨hlt, hget⟩ := this
      exact hget
    have hgj : rows.getD j emptyRow = r' := by
      rw [hgetD j hjlt]
      have := List.get?_eq_some.mp hrj
      obtain ⟨hlt, hget⟩ := this
      exact hget
    refine ⟨by rw [hgi]; exact hnb, j, hjlt, hj, ?_, ?_⟩
    · rw [hgi, hgj, hkey1, hkey2]
    · rw [hgi, hgj]
      exact hpos
  · rintro ⟨hnb, j, hjlt, hj, hkeq, hpeq⟩
    set r := rows.getD i emptyRow with hr
    set r' := rows.getD j emptyRow with hr'
    have hri : rows.get? i = some r := by
      rw [hr, hgetD i h]
      exact List.get?_eq_get h
    have hrj : rows.get? j = some r' := by
      rw [hr', hgetD j hjlt]
      exact List.get?_eq_get hjlt
    have hmi : (i, r) ∈ rows.enum := (henum i r).mpr hri
    have hmj : (j, r') ∈ rows.enum := (henum j r').mpr hrj
    obtain ⟨es, hes⟩ := (groupsOf_char rows).2 (i, r) hmi
    refine ⟨(groupKeyOf r, es), hes, r, ?_, hnb, j, r', ?_, hj, hpeq⟩
    · have hchar := (groupsOf_char rows).1 _ hes
      dsimp only at hchar
      rw [hchar]
      refine List.mem_filter.mpr ⟨hmi, by simp⟩
    · have hchar := (groupsOf_char rows).1 _ hes
      dsimp only at hchar
      rw [hchar]
      refine List.mem_filter.mpr ⟨hmj, by simp [hkeq]⟩

theorem posDuplicateFlags_getD (rows : List Row) (i : ℕ) (h : i < rows.length) :
    (posDuplicateFlags rows).getD i emptyRow =
      { rows.getD i emptyRow with posDuplicate := decide (i ∈ duplicateIndices rows) } := by
  have hlen : i < (posDuplicateFlags rows).length := by
    simpa [posDuplicateFlags, List.enum_length] using h
  rw [List.getD_eq_getElem _ _ hlen, List.getD_eq_getElem _ _ h]
  unfold posDuplicateFlags
  rw [List.getElem_map, List.getElem_enum]

/-- C5: a row is flagged as a duplicate position exactly when another row
of the same table group carries the same non-blank position id; all
occurrences (including the first) are flagged, rows with unique or blank
position ids never are, and the characterization is independent of the
row order. -/
theorem duplicate_position_flag_iff (rows : List Row) (i : ℕ) (h : i < rows.length) :
    ((posDuplicateFlags rows).getD i emptyRow).posDuplicate = true ↔
      (pyStrip ((rows.getD i emptyRow).pos.data) ≠ [] ∧
        ∃ j, j < rows.length ∧ j ≠ i ∧
          groupKeyOf (rows.getD j emptyRow) = groupKeyOf (rows.getD i emptyRow) ∧
          pyStrip ((rows.getD j emptyRow).pos.data) =
            pyStrip ((rows.getD i emptyRow).pos.data)) := by
  rw [posDuplicateFlags_getD rows i h]
  simp only [decide_eq_true_eq]
  exact duplicateIndices_iff rows i h

/-- C5, witness: in the sample rows the first occurrence of position 5 in
table 1 (index 0) is flagged because index 2 repeats it. -/
theorem duplicate_position_flag_iff_witness :
    ((posDuplicateFlags rowsDupSample).getD 0 emptyRow).posDuplicate = true ↔
      (pyStrip ((rowsDupSample.getD 0 emptyRow).pos.data) ≠ [] ∧
        ∃ j, j < rowsDupSample.length ∧ j ≠ 0 ∧
          groupKeyOf (rowsDupSample.getD j emptyRow) =
            groupKeyOf (rowsDupSample.getD 0 emptyRow) ∧
          pyStrip ((rowsDupSample.getD j emptyRow).pos.data) =
            pyStrip ((rowsDupSample.getD 0 emptyRow).pos.data)) :=
  duplicate_position_flag_iff rowsDupSample 0 (by decide)


/-! ### Claim C3: the barrier stops the upward scan -/

theorem qle_eq_false_iff (a b : ℚ) : qle a b = false ↔ b < a := by
  constructor
  · intro h
    by_contra hc
    rw [not_lt] at hc
    rw [(qle_iff a b).mpr hc] at h
    cases h
  · intro h
    by_contra hc
    have := (qle_iff a b).mp (Bool.not_eq_false _ ▸ hc)
    exact absurd this (not_le.mpr h)

theorem addWordToGroups_words_mem :
    ∀ (gs : List LineGroup) (w : Word) (g : LineGroup), g ∈ addWordToGroups gs w →
      ∀ w' ∈ g.words, (∃ g0 ∈ gs, w' ∈ g0.words) ∨ w' = w := by
  intro gs
  induction gs with
  | nil =>
    intro w g hg w' hw'
    rw [addWordToGroups] at hg
    rcases List.mem_singleton.mp hg with rfl
    rcases List.mem_singleton.mp hw' with rfl
    exact Or.inr rfl
  | cons g0 rest ih =>
    intro w g hg w' hw'
    rw [addWordToGroups] at hg
    split at hg
    · rcases List.mem_cons.mp hg with rfl | hgr
      · rcases List.mem_append.mp hw' with hw | hw
        · exact Or.inl ⟨g0, List.mem_cons_self _ _, hw⟩
        · exact Or.inr (List.mem_singleton.mp hw)
      · exact Or.inl ⟨g, List.mem_cons_of_mem _ hgr, hw'⟩
    · rcases List.mem_cons.mp hg with rfl | hgr
      · exact Or.inl ⟨g, List.mem_cons_self _ _, hw'⟩
      · rcases ih w g hgr w' hw' with ⟨g1, hg1, hw1⟩ | heq
        · exact Or.inl ⟨g1, List.mem_cons_of_mem _ hg1, hw1⟩
        · exact Or.inr heq

theorem groupWords_words_mem (t : ℚ) (words : List Word) :
    ∀ g ∈ groupWords t words, ∀ w ∈ g.words, w ∈ words ∧ w.bottom < t - 1 := by
  suffices h : ∀ (ws : List Word) (acc : List LineGroup) (P : Word → Prop),
      (∀ g ∈ acc, ∀ w ∈ g.words, P w) →
      (∀ w ∈ ws, qle (qsub t 1) w.bottom = false → P w) →
      ∀ g ∈ ws.foldl
        (fun gs w => if qle (qsub t 1) w.bottom then gs else addWordToGroups gs w) acc,
        ∀ w ∈ g.words, P w by
    intro g hg w hw
    refine h words [] (fun w => w ∈ words ∧ w.bottom < t - 1) (by simp) ?_ g hg w hw
    intro w hwm hwb
    refine ⟨hwm, ?_⟩
    have := (qle_eq_false_iff _ _).mp hwb
    rwa [qsub_eq] at this
  intro ws
  induction ws with
  | nil =>
    intro acc P hacc hws g hg w hw
    exact hacc g hg w hw
  | cons w0 rest ih =>
    intro acc P hacc hws g hg w hw
    rw [List.foldl_cons] at hg
    by_cases hb : qle (qsub t 1) w0.bottom = true
    · rw [if_pos hb] at hg
      exact ih acc P hacc (fun w hwm hwb => hws w (List.mem_cons_of_mem _ hwm) hwb) g hg w hw
    · rw [if_neg hb] at hg
      refine ih (addWordToGroups acc w0) P ?_
        (fun w hwm hwb => hws w (List.mem_cons_of_mem _ hwm) hwb) g hg w hw
      intro g1 hg1 w1 hw1
      rcases addWordToGroups_words_mem acc w0 g1 hg1 w1 hw1 with ⟨g2, hg2, hw2⟩ | rfl
      · exact hacc g2 hg2 w1 hw2
      · exact hws w1 (List.mem_cons_self _ _) (Bool.not_eq_true _ ▸ hb)

theorem scanBarrier_snd_mem (bar : LineGroup → Bool) (keep : Word → Bool) :
    ∀ (ls : List LineGroup) (b : ℚ), (scanBarrier bar keep ls).2 = some b →
      ∃ g ∈ ls, bar g = true ∧ b = g.bottom := by
  intro ls
  induction ls with
  | nil =>
    intro b hb
    exact absurd hb (by simp [scanBarrier])
  | cons g rest ih =>
    intro b hb
    by_cases hbar : bar g = true
    · have hb2 : some g.bottom = some b := by
        rw [scanBarrier, if_pos hbar] at hb
        exact hb
      exact ⟨g, List.mem_cons_self _ _, hbar, (Option.some.inj hb2).symm⟩
    · have hb2 : (scanBarrier bar keep rest).2 = some b := by
        rw [scanBarrier, if_neg hbar] at hb
        exact hb
      obtain ⟨g', hg', hbar', hbb⟩ := ih b hb2
      exact ⟨g', List.mem_cons_of_mem _ hg', hbar', hbb⟩

theorem scanBarrier_fst_spec (bar : LineGroup → Bool) (keep : Word → Bool) :
    ∀ (ls : List LineGroup), List.Sorted lineGE ls →
      ∀ (b : ℚ), (scanBarrier bar keep ls).2 = some b →
        ∀ w ∈ (scanBarrier bar keep ls).1,
          ∃ g ∈ ls, w ∈ g.words ∧ keep w = true ∧ b ≤ g.bottom := by
  intro ls
  induction ls with
  | nil =>
    intro hs b hb w hw
    exact absurd hw (by simp [scanBarrier])
  | cons g rest ih =>
    intro hs b hb w hw
    by_cases hbar : bar g = true
    · have hvac : w ∈ ([] : List Word) := by
        rw [scanBarrier, if_pos hbar] at hw
        exact hw
      simp at hvac
    · have hb2 : (scanBarrier bar keep rest).2 = some b := by
        rw [scanBarrier, if_neg hbar] at hb
        exact hb
      have hw2 : w ∈ (sortWordsX0 g.words).filter keep ++ (scanBarrier bar keep rest).1 := by
        rw [scanBarrier, if_neg hbar] at hw
        exact hw
      rcases List.mem_append.mp hw2 with hwl | hwr
      · have hwf := List.mem_filter.mp hwl
        have hwm : w ∈ g.words := by
          have hws : w ∈ List.insertionSort wordLE g.words := hwf.1
          exact (List.perm_insertionSort wordLE g.words).mem_iff.mp hws
        obtain ⟨g', hg', hbar', hbb⟩ := scanBarrier_snd_mem bar keep rest b hb2
        have hrel : lineGE g g' := List.rel_of_sorted_cons hs g' hg'
        have hle : g'.bottom ≤ g.bottom := (qle_iff _ _).mp hrel
        refine ⟨g, List.mem_cons_self _ _, hwm, hwf.2, ?_⟩
        rw [hbb]
        exact hle
      · obtain ⟨g', hg', hwm, hk, hbbb⟩ := ih hs.of_cons b hb2 w hwr
        exact ⟨g', List.mem_cons_of_mem _ hg', hwm, hk, hbbb⟩

theorem collectedWords_spec (words : List Word) (bbox : Bbox)
    (calloutTokens : List (List Char)) (b : ℚ)
    (hb : (scanResult words bbox calloutTokens).2 = some b) :
    ∀ w ∈ collectedWords words bbox calloutTokens,
      w ∈ words ∧ w.bottom < bbox.top - 1 ∧ inWindow bbox w = true ∧
        b - 1 / 2 ≤ w.bottom ∧ ∃ g ∈ sortedLines words bbox, w ∈ g.words ∧ b ≤ g.bottom := by
  intro w hw
  have hw2 : w ∈ (scanResult words bbox calloutTokens).1.filter
      (fun w => qle (qsub b qtol) w.bottom) := by
    unfold collectedWords at hw
    dsimp only at hw
    rw [hb] at hw
    exact hw
  have hwf := List.mem_filter.mp hw2
  have hwb : b - 1 / 2 ≤ w.bottom := by
    have h3 := (qle_iff _ _).mp hwf.2
    rwa [qsub_eq, qtol_eq] at h3
  have hb' : (scanBarrier (isBarrierLine calloutTokens) (inWindow bbox)
      (sortedLines words bbox)).2 = some b := hb
  have hw1' : w ∈ (scanBarrier (isBarrierLine calloutTokens) (inWindow bbox)
      (sortedLines words bbox)).1 := hwf.1
  have hsorted : List.Sorted lineGE (sortedLines words bbox) :=
    List.sorted_insertionSort lineGE (groupWords bbox.top words)
  obtain ⟨g, hg, hwm, hk, hgb⟩ :=
    scanBarrier_fst_spec _ _ (sortedLines words bbox) hsorted b hb' w hw1'
  have hgw : g ∈ groupWords bbox.top words := by
    have hg2 : g ∈ List.insertionSort lineGE (groupWords bbox.top words) := hg
    exact (List.perm_insertionSort lineGE (groupWords bbox.top words)).mem_iff.mp hg2
  obtain ⟨hmem, hbot⟩ := groupWords_words_mem bbox.top words g hgw w hwm
  exact ⟨hmem, hbot, hk, hwb, g, hg, hwm, hgb⟩

theorem addWordEntriesGo_mem (descNumbers : List ℚ) (center : ℚ) (w : Word) :
    ∀ (vals : List ℚ) (acc : List CandEntry × List ℚ) (e : CandEntry),
      e ∈ (vals.foldl
        (fun acc2 v =>
          if descNear descNumbers v then acc2
          else if acc2.2.any (fun x => x = v) then acc2
          else (acc2.1 ++ [⟨v, qabs (qsub (wordCenter w) center), wordBbox w⟩],
                acc2.2 ++ [v])) acc).1 →
      e ∈ acc.1 ∨ e.value ∈ vals := by
  intro vals
  induction vals with
  | nil =>
    intro acc e h
    exact Or.inl h
  | cons v vs ihv =>
    intro acc e h
    rw [List.foldl_cons] at h
    split at h
    · rcases ihv _ e h with h2 | h2
      · exact Or.inl h2
      · exact Or.inr (List.mem_cons_of_mem _ h2)
    · split at h
      · rcases ihv _ e h with h2 | h2
        · exact Or.inl h2
        · exact Or.inr (List.mem_cons_of_mem _ h2)
      · rcases ihv _ e h with h2 | h2
        · rcases List.mem_append.mp h2 with h3 | h3
          · exact Or.inl h3
          · have h4 : e = ⟨v, qabs (qsub (wordCenter w) center), wordBbox w⟩ :=
              List.mem_singleton.mp h3
            rw [h4]
            exact Or.inr (List.mem_cons_self _ _)
        · exact Or.inr (List.mem_cons_of_mem _ h2)

theorem buildEntries_mem_weak (descNumbers : List ℚ) (center : ℚ) :
    ∀ (ws : List Word) (acc : List CandEntry × List ℚ) (e : CandEntry),
      e ∈ (ws.foldl (addWordEntries descNumbers center) acc).1 →
      e ∈ acc.1 ∨ ∃ w ∈ ws, e.value ∈ numericFromText w.text := by
  intro ws
  induction ws with
  | nil =>
    intro acc e he
    exact Or.inl he
  | cons w0 rest ih =>
    intro acc e he
    rw [List.foldl_cons] at he
    rcases ih (addWordEntries descNumbers center acc w0) e he with hacc | ⟨w, hwm, hv⟩
    · have h2 : e ∈ (addWordEntries descNumbers center acc w0).1 := hacc
      unfold addWordEntries at h2
      rcases addWordEntriesGo_mem descNumbers center w0 (numericFromText w0.text) acc e h2 with
        h3 | h3
      · exact Or.inl h3
      · exact Or.inr ⟨w0, List.mem_cons_self _ _, h3⟩
    · exact Or.inr ⟨w, List.mem_cons_of_mem _ hwm, hv⟩

theorem dedupValsGo_sub : ∀ (l : List ℚ) (last v : ℚ), v ∈ dedupValsGo last l → v ∈ l := by
  intro l
  induction l with
  | nil =>
    intro last v hv
    simp [dedupValsGo] at hv
  | cons a rest ih =>
    intro last v hv
    rw [dedupValsGo] at hv
    split at hv
    · rcases List.mem_cons.mp hv with rfl | hv2
      · exact List.mem_cons_self _ _
      · exact List.mem_cons_of_mem _ (ih a v hv2)
    · exact List.mem_cons_of_mem _ (ih last v hv)

theorem dedupVals_sub : ∀ (l : List ℚ) (v : ℚ), v ∈ dedupVals l → v ∈ l := by
  intro l v hv
  cases l with
  | nil => simpa [dedupVals] using hv
  | cons a rest =>
    rw [dedupVals] at hv
    rcases List.mem_cons.mp hv with rfl | hv2
    · exact List.mem_cons_self _ _
    · exact List.mem_cons_of_mem _ (dedupValsGo_sub rest a v hv2)

/-- C3: once the upward scan over the lines above the callout hits a
barrier line (an arrow-like or tag-matching line) with bottom `b`, every
numeric candidate returned by the geometric search comes from a word that
lies strictly above the callout (`bottom < bbox.top - 1`), within the
half-unit tolerance of the barrier (`b - 1/2 ≤ bottom`), and belongs to a
line whose bottom is at least `b`; no word of a line scanned after the
barrier contributes. -/
theorem barrier_scan_spec (words : List Word) (bbox : Bbox) (descNumbers : List ℚ)
    (calloutTokens : List (List Char)) (b : ℚ)
    (hb : (scanResult words bbox calloutTokens).2 = some b) :
    ∀ v ∈ (findLengthAboveBbox words bbox descNumbers calloutTokens).1,
      ∃ w ∈ words, v ∈ numericFromText w.text ∧
        w.bottom < bbox.top - 1 ∧ b - 1 / 2 ≤ w.bottom ∧
        ∃ g ∈ sortedLines words bbox, w ∈ g.words ∧ b ≤ g.bottom := by
  intro v hv
  unfold findLengthAboveBbox at hv
  dsimp only at hv
  by_cases h1 : words.isEmpty = true
  · rw [if_pos h1] at hv
    simp at hv
  · rw [if_neg h1] at hv
    by_cases h2 : (groupWords bbox.top words).isEmpty = true
    · rw [if_pos h2] at hv
      simp at hv
    · rw [if_neg h2] at hv
      by_cases h3 : (buildEntries (collectedWords words bbox calloutTokens) descNumbers
          (calloutCenter bbox)).isEmpty = true
      · rw [if_pos h3] at hv
        simp at hv
      · rw [if_neg h3] at hv
        have hv2 : v ∈ dedupVals ((sortEntriesDesc (buildEntries
            (collectedWords words bbox calloutTokens) descNumbers
            (calloutCenter bbox))).map (fun e => e.value)) := hv
        have hv3 := dedupVals_sub _ v hv2
        obtain ⟨e, he, hev⟩ := List.mem_map.mp hv3
        have he2 : e ∈ buildEntries (collectedWords words bbox calloutTokens) descNumbers
            (calloutCenter bbox) :=
          (List.perm_insertionSort entryLE _).mem_iff.mp he
        have he3 : e ∈ ((collectedWords words bbox calloutTokens).foldl
            (addWordEntries descNumbers (calloutCenter bbox)) ([], [])).1 := he2
        rcases buildEntries_mem_weak descNumbers (calloutCenter bbox)
            (collectedWords words bbox calloutTokens) ([], []) e he3 with habs | ⟨w, hwm, hvn⟩
        · simp at habs
        · obtain ⟨hmem, hbot, hwin, hwb, g, hg, hwm2, hgb⟩ :=
            collectedWords_spec words bbox calloutTokens b hb w hwm
          exact ⟨w, hmem, hev ▸ hvn, hbot, hwb, g, hg, hwm2, hgb⟩

/-- C3, witness: in the barrier sample the scan stops at the barrier line
with bottom 30, the value 400 is returned, and it originates from a word
at or below the barrier and strictly above the callout. -/
theorem barrier_scan_spec_witness :
    (scanResult wordsBarrier bboxSample [['3']]).2 = some 30 ∧
    (400 : ℚ) ∈ (findLengthAboveBbox wordsBarrier bboxSample [] [['3']]).1 ∧
    ∃ w ∈ wordsBarrier, (400 : ℚ) ∈ numericFromText w.text ∧
      w.bottom < bboxSample.top - 1 ∧ (30 : ℚ) - 1 / 2 ≤ w.bottom ∧
      ∃ g ∈ sortedLines wordsBarrier bboxSample, w ∈ g.words ∧ (30 : ℚ) ≤ g.bottom :=
  ⟨by decide, by decide,
   barrier_scan_spec wordsBarrier bboxSample [] [['3']] 30 (by decide) 400 (by decide)⟩

/-! ### Claim C8: value deduplication, bounding boxes and ordering -/

theorem entryProp_append (descN : List ℚ) (processed ws : List Word) (e : CandEntry)
    (h : entryProp descN processed e) : entryProp descN (processed ++ ws) e := by
  unfold entryProp at h ⊢
  obtain ⟨hdn, w, hf, hb, hv⟩ := h
  refine ⟨hdn, w, ?_, hb, hv⟩
  rw [List.find?_append, hf]
  rfl

theorem entryStep_fold_invariant (descN : List ℚ) (center : ℚ) (w0 : Word)
    (processed : List Word) :
    ∀ (vals : List ℚ) (acc : List CandEntry × List ℚ),
      (∀ v ∈ vals, v ∈ numericFromText w0.text) →
      (∀ e ∈ acc.1, entryProp descN (processed ++ [w0]) e) →
      acc.2 = acc.1.map (fun e => e.value) →
      acc.2.Nodup →
      (∀ v ∈ vals, v ∉ acc.2 → descNear descN v = false →
        (processed ++ [w0]).find?
          (fun w => (numericFromText w.text).any (fun x => x = v)) = some w0) →
      (∀ e ∈ (vals.foldl (entryStep descN center w0) acc).1,
        entryProp descN (processed ++ [w0]) e) ∧
      (vals.foldl (entryStep descN center w0) acc).2 =
        (vals.foldl (entryStep descN center w0) acc).1.map (fun e => e.value) ∧
      (vals.foldl (entryStep descN center w0) acc).2.Nodup ∧
      (∀ v ∈ acc.2, v ∈ (vals.foldl (entryStep descN center w0) acc).2) ∧
      (∀ v ∈ vals, descNear descN v = false →
        v ∈ (vals.foldl (entryStep descN center w0) acc).2) := by
  intro vals
  induction vals with
  | nil =>
    intro acc hsub h2 hmap hnd hfind
    exact ⟨h2, hmap, hnd, fun v hv => hv, fun v hv => absurd hv (List.not_mem_nil v)⟩
  | cons v vs ih =>
    intro acc hsub h2 hmap hnd hfind
    rw [List.foldl_cons]
    cases hd : descNear descN v with
    | true =>
      have hstep : entryStep descN center w0 acc v = acc := by
        unfold entryStep
        rw [if_pos hd]
      rw [hstep]
      obtain ⟨c1, c2, c3, c4, c5⟩ := ih acc
        (fun u hu => hsub u (List.mem_cons_of_mem _ hu)) h2 hmap hnd
        (fun u hu => hfind u (List.mem_cons_of_mem _ hu))
      refine ⟨c1, c2, c3, c4, ?_⟩
      intro u hu hdn
      rcases List.mem_cons.mp hu with rfl | hu2
      · rw [hd] at hdn
        cases hdn
      · exact c5 u hu2 hdn
    | false =>
      cases hseen : acc.2.any (fun x => x = v) with
      | true =>
        have hstep : entryStep descN center w0 acc v = acc := by
          unfold entryStep
          rw [if_neg (by simp [hd]), if_pos hseen]
        rw [hstep]
        obtain ⟨c1, c2, c3, c4, c5⟩ := ih acc
          (fun u hu => hsub u (List.mem_cons_of_mem _ hu)) h2 hmap hnd
          (fun u hu => hfind u (List.mem_cons_of_mem _ hu))
        have hvmem : v ∈ acc.2 := by
          rcases List.any_eq_true.mp hseen with ⟨x, hx, hxv⟩
          have hx2 : x = v := by simpa using hxv
          rwa [hx2] at hx
        refine ⟨c1, c2, c3, c4, ?_⟩
        intro u hu hdn
        rcases List.mem_cons.mp hu with rfl | hu2
        · exact c4 u hvmem
        · exact c5 u hu2 hdn
      | false =>
        have hvne : v ∉ acc.2 := by
          intro hc
          have h : acc.2.any (fun x => x = v) = true := by
            rw [List.any_eq_true]
            exact ⟨v, hc, decide_eq_true rfl⟩
          rw [hseen] at h
          cases h
        have hstep : entryStep descN center w0 acc v =
            (acc.1 ++ [⟨v, qabs (qsub (wordCenter w0) center), wordBbox w0⟩],
             acc.2 ++ [v]) := by
          unfold entryStep
          rw [if_neg (by simp [hd]), if_neg (by simp [hseen])]
        rw [hstep]
        have hnew : entryProp descN (processed ++ [w0])
            ⟨v, qabs (qsub (wordCenter w0) center), wordBbox w0⟩ := by
          unfold entryProp
          exact ⟨hd, w0, hfind v (List.mem_cons_self _ _) hvne hd, rfl,
            hsub v (List.mem_cons_self _ _)⟩
        obtain ⟨c1, c2, c3, c4, c5⟩ := ih
          (acc.1 ++ [⟨v, qabs (qsub (wordCenter w0) center), wordBbox w0⟩], acc.2 ++ [v])
          (fun u hu => hsub u (List.mem_cons_of_mem _ hu))
          (by
            intro e he
            rcases List.mem_append.mp he with he1 | he2
            · exact h2 e he1
            · rw [List.mem_singleton.mp he2]
              exact hnew)
          (by
            rw [List.map_append, ← hmap]
            rfl)
          (by
            rw [List.nodup_append]
            exact ⟨hnd, List.nodup_singleton v,
              fun a ha hb => hvne (List.mem_singleton.mp hb ▸ ha)⟩)
          (fun u hu hune hdn =>
            hfind u (List.mem_cons_of_mem _ hu)
              (fun hc => hune (List.mem_append.mpr (Or.inl hc))) hdn)
        refine ⟨c1, c2, c3, ?_, ?_⟩
        · intro u hu
          exact c4 u (List.mem_append.mpr (Or.inl hu))
        · intro u hu hdn
          rcases List.mem_cons.mp hu with rfl | hu2
          · exact c4 u (List.mem_append.mpr (Or.inr (List.mem_singleton.mpr rfl)))
          · exact c5 u hu2 hdn

theorem buildEntries_fold_invariant (descN : List ℚ) (center : ℚ) :
    ∀ (ws : List Word) (processed : List Word) (acc : List CandEntry × List ℚ),
      (∀ e ∈ acc.1, entryProp descN processed e) →
      acc.2 = acc.1.map (fun e => e.value) →
      acc.2.Nodup →
      (∀ v, seenProp descN processed v → v ∈ acc.2) →
      (∀ e ∈ (ws.foldl (addWordEntries descN center) acc).1,
        entryProp descN (processed ++ ws) e) ∧
      (ws.foldl (addWordEntries descN center) acc).2 =
        (ws.foldl (addWordEntries descN center) acc).1.map (fun e => e.value) ∧
      (ws.foldl (addWordEntries descN center) acc).2.Nodup ∧
      (∀ v, seenProp descN (processed ++ ws) v →
        v ∈ (ws.foldl (addWordEntries descN center) acc).2) := by
  intro ws
  induction ws with
  | nil =>
    intro processed acc h2 hmap hnd hseen
    refine ⟨?_, hmap, hnd, ?_⟩
    · intro e he
      rw [List.append_nil]
      exact h2 e he
    · intro v hv
      rw [List.append_nil] at hv
      exact hseen v hv
  | cons w0 rest ih =>
    intro processed acc h2 hmap hnd hseen
    rw [List.foldl_cons,
      show addWordEntries descN center acc w0 =
        (numericFromText w0.text).foldl (entryStep descN center w0) acc from rfl]
    have h2' : ∀ e ∈ acc.1, entryProp descN (processed ++ [w0]) e :=
      fun e he => entryProp_append descN processed [w0] e (h2 e he)
    have hfind0 : ∀ v ∈ numericFromText w0.text, v ∉ acc.2 → descNear descN v = false →
        (processed ++ [w0]).find?
          (fun w => (numericFromText w.text).any (fun x => x = v)) = some w0 := by
      intro v hv hvne hdn
      have hnone : processed.find?
          (fun w => (numericFromText w.text).any (fun x => x = v)) = none := by
        rw [List.find?_eq_none]
        intro w hw hpw
        rcases List.any_eq_true.mp hpw with ⟨x, hx, hxv⟩
        have hx2 : x = v := by simpa using hxv
        refine hvne (hseen v ?_)
        unfold seenProp
        exact ⟨hdn, w, hw, hx2 ▸ hx⟩
      rw [List.find?_append, hnone, Option.none_or]
      refine List.find?_cons_of_pos _ ?_
      rw [List.any_eq_true]
      exact ⟨v, hv, decide_eq_true rfl⟩
    obtain ⟨g1, g2, g3, g4, g5⟩ := entryStep_fold_invariant descN center w0 processed
      (numericFromText w0.text) acc (fun u hu => hu) h2' hmap hnd hfind0
    have hseen' : ∀ v, seenProp descN (processed ++ [w0]) v →
        v ∈ ((numericFromText w0.text).foldl (entryStep descN center w0) acc).2 := by
      intro v hv
      unfold seenProp at hv
      obtain ⟨hdn, w, hw, hvw⟩ := hv
      rcases List.mem_append.mp hw with hw1 | hw2
      · refine g4 v (hseen v ?_)
        unfold seenProp
        exact ⟨hdn, w, hw1, hvw⟩
      · rw [List.mem_singleton.mp hw2] at hvw
        exact g5 v hvw hdn
    obtain ⟨f1, f2, f3, f4⟩ := ih (processed ++ [w0])
      ((numericFromText w0.text).foldl (entryStep descN center w0) acc) g1 g2 g3 hseen'
    refine ⟨?_, f2, f3, ?_⟩
    · intro e he
      rw [List.append_cons]
      exact f1 e he
    · intro v hv
      rw [List.append_cons] at hv
      exact f4 v hv

theorem assignBboxes_acc_eq :
    ∀ (es : List CandEntry) (acc : List (ℚ × Bbox)),
      (∀ e ∈ es, (acc.find? (fun p => p.1 = e.value)).isSome = false) →
      ((es.map (fun e => e.value)).Nodup) →
      assignBboxes acc es = acc ++ es.map (fun e => (e.value, e.bbox)) := by
  intro es
  induction es with
  | nil =>
    intro acc h hnd
    rw [assignBboxes]
    simp
  | cons e rest ih =>
    intro acc h hnd
    rw [List.map_cons] at hnd
    have hnd2 := List.nodup_cons.mp hnd
    rw [assignBboxes, if_neg (by simp [h e (List.mem_cons_self _ _)])]
    have h' : ∀ e' ∈ rest,
        (((acc ++ [(e.value, e.bbox)]).find? (fun p => p.1 = e'.value)).isSome = false) := by
      intro e' he'
      have hanone : acc.find? (fun p => p.1 = e'.value) = none := by
        cases hopt : acc.find? (fun p => p.1 = e'.value) with
        | none => rfl
        | some p =>
          have ha := h e' (List.mem_cons_of_mem _ he')
          rw [hopt] at ha
          cases ha
      have hne : ¬(e.value = e'.value) := by
        intro hc
        refine hnd2.1 ?_
        rw [hc]
        exact List.mem_map.mpr ⟨e', he', rfl⟩
      rw [List.find?_append, hanone, Option.none_or,
        List.find?_cons_of_neg _ (by simp [hne])]
      rfl
    rw [ih (acc ++ [(e.value, e.bbox)]) h' hnd2.2, List.map_cons]
    simp

theorem mapped_bbox_find :
    ∀ (es : List CandEntry), ((es.map (fun e => e.value)).Nodup) →
      ∀ e ∈ es, ((es.map (fun a => (a.value, a.bbox))).find? (fun p => p.1 = e.value)) =
        some (e.value, e.bbox) := by
  intro es
  induction es with
  | nil =>
    intro hnd e he
    exact absurd he (List.not_mem_nil e)
  | cons e0 rest ih =>
    intro hnd e he
    rw [List.map_cons] at hnd
    have hnd2 := List.nodup_cons.mp hnd
    rw [List.map_cons]
    rcases List.mem_cons.mp he with rfl | he2
    · exact List.find?_cons_of_pos _ (by simp)
    · have hne : ¬(e0.value = e.value) := by
        intro hc
        refine hnd2.1 ?_
        rw [hc]
        exact List.mem_map.mpr ⟨e, he2, rfl⟩
      rw [List.find?_cons_of_neg _ (by simp [hne])]
      exact ih hnd2.2 e he2

theorem entryLE_value_le (a b : CandEntry) (h : entryLE a b) : b.value ≤ a.value := by
  unfold entryLE at h
  rw [Bool.or_eq_true] at h
  rcases h with h1 | h2
  · exact le_of_lt ((qlt_iff _ _).mp h1)
  · rw [Bool.and_eq_true] at h2
    have hv : a.value = b.value := by simpa using h2.1
    exact le_of_eq hv.symm

theorem descChain_go (rest : List ℚ) : ∀ last : ℚ, (∀ x ∈ rest, x ≤ last) →
    rest.Pairwise (fun x y => y ≤ x) →
    descChain (last :: dedupValsGo last rest) = true := by
  induction rest with
  | nil =>
    intro last h hp
    rfl
  | cons a rest' ih =>
    intro last h hp
    rw [dedupValsGo]
    have hal : a ≤ last := h a (List.mem_cons_self _ _)
    split
    · next hkeep =>
      rw [descChain, Bool.and_eq_true]
      constructor
      · refine (qlt_iff _ _).mpr ?_
        have hk := (qlt_iff _ _).mp hkeep
        rw [qabs_eq, qsub_eq] at hk
        rw [abs_of_nonpos (by linarith)] at hk
        rw [qsub_eq]
        linarith
      · exact ih a (fun x hx => List.rel_of_pairwise_cons hp hx) hp.of_cons
    · next hdrop =>
      exact ih last (fun x hx => le_trans (List.rel_of_pairwise_cons hp hx) hal) hp.of_cons

theorem descChain_dedupVals (l : List ℚ) (h : l.Pairwise (fun x y => y ≤ x)) :
    descChain (dedupVals l) = true := by
  cases l with
  | nil => rfl
  | cons v rest =>
    rw [dedupVals]
    exact descChain_go rest v (fun x hx => List.rel_of_pairwise_cons h hx) h.of_cons

/-- C8, counterexample: in the two-word sample both occurrences of 250 are
collected and in the horizontal window, the right-hand occurrence is
strictly nearer to the callout center, yet the bounding box reported for
the value 250 is that of the left-hand occurrence, which is collected
first; the spec's nearest-by-offset rule does not hold. -/
theorem dedup_bbox_cex :
    lookupBbox (findLengthAboveBbox wordsDedup bboxSample [] [['3']]).2 250 =
      some { x0 := 40, x1 := 60, top := 50, bottom := 55 } ∧
    ({ text := "250", x0 := 140, x1 := 160, top := 50, bottom := 55 } : Word) ∈
      collectedWords wordsDedup bboxSample [['3']] ∧
    (250 : ℚ) ∈ numericFromText "250" ∧
    qlt (qabs (qsub (wordCenter { text := "250", x0 := 140, x1 := 160, top := 50, bottom := 55 })
          (calloutCenter bboxSample)))
        (qabs (qsub (wordCenter { text := "250", x0 := 40, x1 := 60, top := 50, bottom := 55 })
          (calloutCenter bboxSample))) = true ∧
    wordBbox { text := "250", x0 := 140, x1 := 160, top := 50, bottom := 55 } ≠
      { x0 := 40, x1 := 60, top := 50, bottom := 55 } := by
  decide

/-- C8 (amended): the geometric search deduplicates candidates by exact
value, the returned value list is strictly descending with consecutive
gaps above the 1e-6 merge tolerance, every returned value passes the
description-number filter, and the bounding box reported for a value is
that of the first collected word (in scan order: nearest line first, then
left to right) whose numeric values contain it — not necessarily the
occurrence nearest to the callout center. -/
theorem dedup_first_occurrence (words : List Word) (bbox : Bbox) (descNumbers : List ℚ)
    (calloutTokens : List (List Char)) :
    descChain (findLengthAboveBbox words bbox descNumbers calloutTokens).1 = true ∧
    ∀ v ∈ (findLengthAboveBbox words bbox descNumbers calloutTokens).1,
      descNear descNumbers v = false ∧
      ∃ w, (collectedWords words bbox calloutTokens).find?
          (fun w => (numericFromText w.text).any (fun x => x = v)) = some w ∧
        lookupBbox (findLengthAboveBbox words bbox descNumbers calloutTokens).2 v =
          some (wordBbox w) := by
  unfold findLengthAboveBbox
  dsimp only
  by_cases h1 : words.isEmpty = true
  · rw [if_pos h1]
    exact ⟨rfl, fun v hv => absurd hv (List.not_mem_nil v)⟩
  · rw [if_neg h1]
    by_cases h2 : (groupWords bbox.top words).isEmpty = true
    · rw [if_pos h2]
      exact ⟨rfl, fun v hv => absurd hv (List.not_mem_nil v)⟩
    · rw [if_neg h2]
      by_cases h3 : (buildEntries (collectedWords words bbox calloutTokens) descNumbers
          (calloutCenter bbox)).isEmpty = true
      · rw [if_pos h3]
        exact ⟨rfl, fun v hv => absurd hv (List.not_mem_nil v)⟩
      · rw [if_neg h3]
        obtain ⟨g1, g2, g3, g4⟩ := buildEntries_fold_invariant descNumbers (calloutCenter bbox)
          (collectedWords words bbox calloutTokens) [] ([], [])
          (fun e he => absurd he (List.not_mem_nil e)) rfl List.nodup_nil
          (fun v hv => by
            unfold seenProp at hv
            obtain ⟨_, w, hw, _⟩ := hv
            exact absurd hw (List.not_mem_nil w))
        have hnodupE : ((buildEntries (collectedWords words bbox calloutTokens) descNumbers
            (calloutCenter bbox)).map (fun e => e.value)).Nodup := by
          have h := g3
          rw [g2] at h
          exact h
        have hnodupS : ((sortEntriesDesc (buildEntries (collectedWords words bbox calloutTokens)
            descNumbers (calloutCenter bbox))).map (fun e => e.value)).Nodup := by
          have hp := (List.perm_insertionSort entryLE (buildEntries
            (collectedWords words bbox calloutTokens) descNumbers
            (calloutCenter bbox))).map (fun e => e.value)
          exact hp.nodup_iff.mpr hnodupE
        have hpair : ((sortEntriesDesc (buildEntries (collectedWords words bbox calloutTokens)
            descNumbers (calloutCenter bbox))).map (fun e => e.value)).Pairwise
            (fun x y => y ≤ x) := by
          rw [List.pairwise_map]
          exact List.Pairwise.imp (fun hab => entryLE_value_le _ _ hab)
            (List.sorted_insertionSort entryLE _)
        constructor
        · exact descChain_dedupVals _ hpair
        · intro v hv
          have hv' : v ∈ dedupVals ((sortEntriesDesc (buildEntries
              (collectedWords words bbox calloutTokens) descNumbers
              (calloutCenter bbox))).map (fun e => e.value)) := hv
          have hv2 := dedupVals_sub _ v hv'
          obtain ⟨e, he, hev⟩ := List.mem_map.mp hv2
          have he' : e ∈ buildEntries (collectedWords words bbox calloutTokens) descNumbers
              (calloutCenter bbox) :=
            (List.perm_insertionSort entryLE _).mem_iff.mp he
          have hep := g1 e he'
          unfold entryProp at hep
          obtain ⟨hdn, w, hfind, hbbox, hval⟩ := hep
          refine ⟨hev ▸ hdn, w, ?_, ?_⟩
          · rw [← hev]
            exact hfind
          · show lookupBbox (assignBboxes [] (sortEntriesDesc (buildEntries
              (collectedWords words bbox calloutTokens) descNumbers
              (calloutCenter bbox)))) v = some (wordBbox w)
            rw [assignBboxes_acc_eq (sortEntriesDesc (buildEntries
              (collectedWords words bbox calloutTokens) descNumbers
              (calloutCenter bbox))) [] (fun e' he'2 => rfl) hnodupS, List.nil_append]
            unfold lookupBbox
            rw [← hev, mapped_bbox_find (sortEntriesDesc (buildEntries
              (collectedWords words bbox calloutTokens) descNumbers
              (calloutCenter bbox))) hnodupS e he]
            simp only [Option.map_some']
            rw [hbbox]

/-- C8 (amended), witness: on the two-word sample the returned list is
strictly descending, 250 passes the description filter, and its bounding
box is that of the first collected word containing 250. -/
theorem dedup_first_occurrence_witness :
    descChain (findLengthAboveBbox wordsDedup bboxSample [] [['3']]).1 = true ∧
    (descNear [] 250 = false ∧
      ∃ w, (collectedWords wordsDedup bboxSample [['3']]).find?
          (fun w => (numericFromText w.text).any (fun x => x = 250)) = some w ∧
        lookupBbox (findLengthAboveBbox wordsDedup bboxSample [] [['3']]).2 250 =
          some (wordBbox w)) :=
  ⟨(dedup_first_occurrence wordsDedup bboxSample [] [['3']]).1,
   (dedup_first_occurrence wordsDedup bboxSample [] [['3']]).2 250 (by decide)⟩
